import Mathlib

/-!
Verification development for the loom repository (React/TypeScript tree-writing UI).

The definitions below are shallow embeddings of the program's source:

* `calcW`, `layoutF`, `calculateLayout` embed `calculateSubtreeWidth`, `layout` and
  `calculateLayout` from `src/components/TreeView.tsx`.  JS `Record<string, T>` objects
  are embedded as association lists with first-match lookup (`alookup`); the two
  mutable `Set<string>` objects and the `positions` record are threaded explicitly
  through an `LState` record.  The unbounded JS recursion is embedded with a fuel
  parameter; the entry point supplies `nodes.length + 1` fuel, and a stability theorem
  shows the result is independent of the fuel beyond this bound (i.e. the recursion
  terminates).
* `truncateText` and `handleSave` embed the helpers of the `EditableNode` component.
* `updateModelConfig` embeds the settings-store action of the same name.
-/

/-- A tree node as consumed by the layout algorithm: the layout code reads only the
`children` id sequence of each node (other `TreeNode` fields are presentation-only). -/
structure TreeNode where
  children : List String
deriving DecidableEq, Repr

/-- The `nodes` record of a tree: a string-keyed mapping embedded as an association
list (unique keys in the real JS object; lookup takes the first match). -/
abbrev NodeMap := List (String × TreeNode)

/-- First-match lookup in a string-keyed association list, embedding JS record
indexing `obj[key]` (missing key gives `undefined`, here `none`). -/
def alookup {α : Type} : List (String × α) → String → Option α
  | [], _ => none
  | (k, v) :: rest, key => if k = key then some v else alookup rest key

theorem alookup_cons {α : Type} (k : String) (v : α) (rest : List (String × α))
    (key : String) :
    alookup ((k, v) :: rest) key = if k = key then some v else alookup rest key := rfl

/-- `horizontalSpacing` constant of `TreeView.tsx`. -/
def horizontalSpacing : Int := 250

/-- `verticalSpacing` constant of `TreeView.tsx`. -/
def verticalSpacing : Int := 120

/-- The mutable state of one `calculateLayout` invocation: `lv` is the `Set` passed as
the `visited` parameter of `layout`; `wv` is the outer `visited` set used by
`calculateSubtreeWidth`; `positions` is the `positions` record. -/
structure LState where
  lv : List String
  wv : List String
  positions : List (String × (Int × Int))
deriving Repr

/-- One step of the `reduce` in `calculateSubtreeWidth`: folds a width function `f`
over a children list, threading the (mutable) width-visited set and summing widths
starting from 0. -/
def calcWKids (f : String → List String → Nat × List String) :
    List String → List String → Nat × List String
  | [], vis => (0, vis)
  | c :: cs, vis =>
    let r := f c vis
    let r2 := calcWKids f cs r.2
    (r.1 + r2.1, r2.2)

/-- `calculateSubtreeWidth` from `TreeView.tsx`.  Returns the width together with the
updated width-visited set (`visited` in the source is mutated in place).  A missing or
already-visited node counts 1; a leaf counts 1; otherwise the widths of the children
are summed.  The fuel parameter makes the JS recursion structural; `calculateLayout`
supplies enough fuel that the `0` branch is never taken (see the stability theorem). -/
def calcW (nodes : NodeMap) : Nat → String → List String → Nat × List String
  | 0, _, vis => (1, vis)
  | fuel + 1, nodeId, vis =>
    match alookup nodes nodeId with
    | none => (1, vis)
    | some node =>
      if nodeId ∈ vis then (1, vis)
      else if node.children = [] then (1, nodeId :: vis)
      else calcWKids (fun c v => calcW nodes fuel c v) node.children (nodeId :: vis)

/-- The `forEach` loop in `layout`: lays out a children list left to right, threading
`currentX` and the state.  `y` is the parent's y; each child is laid out at
`y + verticalSpacing`.  The child's x is
`currentX + childWidth * horizontalSpacing / 2 - horizontalSpacing / 2`, with
`childWidth` consulted from `calculateSubtreeWidth` under the current width-visited
set (shared across the entire layout pass, exactly as in the source). -/
def layoutKids (nodes : NodeMap) (f : String → Int → Int → LState → Int × LState) :
    List String → Int → Int → LState → Int × LState
  | [], currentX, _, st => (currentX, st)
  | childId :: rest, currentX, y, st =>
    let wr := calcW nodes (nodes.length + 1) childId st.wv
    let childX := currentX + ((wr.1 : Int) * horizontalSpacing) / 2 - horizontalSpacing / 2
    let r := f childId childX (y + verticalSpacing) { st with wv := wr.2 }
    layoutKids nodes f rest r.1 y r.2

/-- `layout` from `TreeView.tsx`.  Places `nodeId` at `(x, y)`, recurses over its
children, and returns `max currentX (x + horizontalSpacing)` together with the updated
state.  A missing or already-visited node returns `x` unchanged (a stopped branch). -/
def layoutF (nodes : NodeMap) : Nat → String → Int → Int → LState → Int × LState
  | 0, _, x, _, st => (x, st)
  | fuel + 1, nodeId, x, y, st =>
    match alookup nodes nodeId with
    | none => (x, st)
    | some node =>
      if nodeId ∈ st.lv then (x, st)
      else
        let st1 : LState :=
          { st with
            lv := nodeId :: st.lv
            positions := (nodeId, (x, y)) :: st.positions }
        let r := layoutKids nodes (fun c cx cy s => layoutF nodes fuel c cx cy s)
          node.children x y st1
        (max r.1 (x + horizontalSpacing), r.2)

/-- `calculateLayout` from `TreeView.tsx`: clears the width-visited set, runs
`layout(rootId, 0, 0, new Set())` on a fresh `positions` record, and returns the
positions. -/
def calculateLayout (rootId : String) (nodes : NodeMap) : List (String × (Int × Int)) :=
  (layoutF nodes (nodes.length + 1) rootId 0 0 ⟨[], [], []⟩).2.positions

/-- `truncateText` from the `EditableNode` component.  JS strings are embedded as
lists of UTF-16 units (`List Char`); `data.truncateLength || 150` means a supplied 0
falls back to 150 (JS falsiness). -/
def truncateText (text : List Char) (truncateLength : Option Nat) : List Char :=
  let maxLength := match truncateLength with
    | none => 150
    | some n => if n = 0 then 150 else n
  if text.length ≤ maxLength then text
  else text.take maxLength ++ ['.', '.', '.']

/-- JavaScript `String.prototype.trim`: strips leading and trailing whitespace
(strings embedded as lists of UTF-16 units). -/
def jsTrim (s : List Char) : List Char :=
  ((s.dropWhile Char.isWhitespace).reverse.dropWhile Char.isWhitespace).reverse

/-- `handleSave` from the `EditableNode` component: the `onEdit` callback fires with
the (untrimmed) edit text exactly when the trimmed edit text differs from the stored
`data.text`; the returned option is `some t` iff the callback fires with text `t`. -/
def handleSave (editText : List Char) (storedText : List Char) : Option (List Char) :=
  if jsTrim editText ≠ storedText then some editText else none

/-- `ModelConfig` from `src/types` as consumed by the settings store. -/
structure ModelConfig where
  name : String
  type : String
  api_base : Option String
  api_key : Option String
deriving DecidableEq, Repr

/-- `Partial<ModelConfig>`: each field optionally present. -/
structure ModelConfigPatch where
  name : Option String
  type : Option String
  api_base : Option String
  api_key : Option String
deriving DecidableEq, Repr

/-- `Object.assign(config, updates)`: fields present in the patch overwrite. -/
def applyPatch (c : ModelConfig) (u : ModelConfigPatch) : ModelConfig :=
  { name := match u.name with | some v => v | none => c.name
    type := match u.type with | some v => v | none => c.type
    api_base := match u.api_base with | some v => some v | none => c.api_base
    api_key := match u.api_key with | some v => some v | none => c.api_key }

/-- `Preferences` from the settings store defaults. -/
structure Preferences where
  reverse : Bool
  walk : String
  nav_tag : String
  editable : Bool
  history_conflict : String
  coloring : String
  bold_prompt : Bool
  font_size : Nat
  line_spacing : Nat
  paragraph_spacing : Nat
  revision_history : Bool
  autosave : Bool
  model_response : String
  prob : Bool
  darkMode : Bool
deriving DecidableEq, Repr

/-- One pane of the workspace (`open` is a Lean keyword, hence `open'`). -/
structure PaneState where
  open' : Bool
  modules : List String
deriving DecidableEq, Repr

/-- `Workspace` from the settings store. -/
structure Workspace where
  side_pane : PaneState
  bottom_pane : PaneState
  buttons : List String
  alt_textbox : Bool
  show_search : Bool
deriving DecidableEq, Repr

/-- `GenerationSettings` from the settings store. -/
structure GenerationSettings where
  model : String
  response_length : Nat
  num_continuations : Nat
  temperature : Rat
  top_p : Rat
  logprobs : Nat
  stop : List String
  logit_bias : List (String × Rat)
deriving DecidableEq, Repr

/-- The state slice of `useSettingsStore`; `modelConfigs` is a string-keyed record. -/
structure SettingsState where
  preferences : Preferences
  workspace : Workspace
  generationSettings : GenerationSettings
  modelConfigs : List (String × ModelConfig)
deriving DecidableEq, Repr

/-- In-place mutation of the record entry at `key` (immer draft update): every entry
whose key is `key` (unique in the real JS record) is replaced by `f` of its value. -/
def updateEntries {α : Type} : List (String × α) → String → (α → α) → List (String × α)
  | [], _, _ => []
  | (k, v) :: rest, key, f =>
    if k = key then (k, f v) :: updateEntries rest key f
    else (k, v) :: updateEntries rest key f

/-- `updateModelConfig` from `settingsStore`: if a config named `name` exists, merge
`updates` into it (immer draft mutation via `Object.assign`), otherwise do nothing. -/
def updateModelConfig (s : SettingsState) (name : String) (updates : ModelConfigPatch) :
    SettingsState :=
  match alookup s.modelConfigs name with
  | none => s
  | some _ =>
    { s with modelConfigs := updateEntries s.modelConfigs name (fun c => applyPatch c updates) }

/-! ### Association-list lookup lemmas -/

theorem alookup_updateEntries_self {α : Type} (l : List (String × α)) (k : String)
    (f : α → α) :
    alookup (updateEntries l k f) k = (alookup l k).map f := by
  induction l with
  | nil => rfl
  | cons p rest ih =>
    obtain ⟨pk, pv⟩ := p
    by_cases h : pk = k
    · subst h
      simp [updateEntries, alookup, ih]
    · simp [updateEntries, alookup, h, ih]

theorem alookup_updateEntries_ne {α : Type} (l : List (String × α)) (k k' : String)
    (hne : k' ≠ k) (f : α → α) :
    alookup (updateEntries l k f) k' = alookup l k' := by
  induction l with
  | nil => rfl
  | cons p rest ih =>
    obtain ⟨pk, pv⟩ := p
    by_cases h : pk = k
    · subst h
      have hne' : pk ≠ k' := fun hk => hne hk.symm
      simp [updateEntries, alookup, hne', ih]
    · simp [updateEntries, alookup, h, ih]

/-! ### Node editor and settings store claims -/

/-- Effective truncation limit of `truncateText`: the supplied `truncateLength` when it
is nonzero, and 150 when it is absent or 0 (the `||` fallback treats 0 as falsy). -/
def effectiveTruncateLimit (tl : Option Nat) : Nat :=
  match tl with
  | none => 150
  | some n => if n = 0 then 150 else n

/-- C8 (counterexample): as stated, the claim fails when `truncateLength = 0` is
supplied: the limit should then be 0 and a 4-character string should be truncated to
"..." (length at most 0 + 3), but the code's `|| 150` fallback returns the string
unchanged, of length 4 > 0 + 3. -/
theorem truncateText_zero_limit_cex :
    truncateText ['a', 'b', 'c', 'd'] (some 0) = ['a', 'b', 'c', 'd'] ∧
    0 + 3 < (truncateText ['a', 'b', 'c', 'd'] (some 0)).length := by
  constructor
  · rfl
  · decide

/-- C8 (amended): `truncateText` is the identity on strings of length at most the
effective limit (supplied `truncateLength` when nonzero, 150 when absent or 0); longer
strings are cut to the first limit characters plus "...", so the output length never
exceeds the effective limit + 3. -/
theorem truncateText_spec (text : List Char) (tl : Option Nat) :
    (text.length ≤ effectiveTruncateLimit tl → truncateText text tl = text) ∧
    (effectiveTruncateLimit tl < text.length →
      truncateText text tl = text.take (effectiveTruncateLimit tl) ++ ['.', '.', '.']) ∧
    (truncateText text tl).length ≤ effectiveTruncateLimit tl + 3 := by
  have hdef : truncateText text tl =
      if text.length ≤ effectiveTruncateLimit tl then text
      else text.take (effectiveTruncateLimit tl) ++ ['.', '.', '.'] := by
    cases tl <;> rfl
  rw [hdef]
  by_cases h : text.length ≤ effectiveTruncateLimit tl
  · rw [if_pos h]
    exact ⟨fun _ => rfl, fun hlt => absurd h (by omega), by omega⟩
  · rw [if_neg h]
    refine ⟨fun hle => absurd hle h, fun _ => rfl, ?_⟩
    simp only [List.length_append, List.length_take, List.length_cons, List.length_nil]
    omega

/-- C8 witness: the amended theorem applied at a concrete short string with no
supplied limit. -/
theorem truncateText_spec_witness :
    truncateText ['a', 'b'] none = ['a', 'b'] :=
  (truncateText_spec ['a', 'b'] none).1 (by decide)

/-- C9: the node editor's save handler reports an edit exactly when the trimmed edit
text differs from the stored text, and the reported text is the untrimmed edit text;
when the trimmed text equals the stored text nothing is reported. -/
theorem handleSave_spec (editText storedText : List Char) :
    (handleSave editText storedText = some editText ↔ jsTrim editText ≠ storedText) ∧
    (handleSave editText storedText = none ↔ jsTrim editText = storedText) ∧
    (∀ t, handleSave editText storedText = some t → t = editText) := by
  unfold handleSave
  by_cases h : jsTrim editText = storedText
  · simp [h]
  · simp [h]

/-- C9 witness: saving "a " over stored "a" (trim-equal) reports nothing; saving "b"
over stored "a" reports the untrimmed "b". -/
theorem handleSave_spec_witness :
    handleSave ['a', ' '] ['a'] = none ∧ handleSave ['b'] ['a'] = some ['b'] := by
  constructor
  · exact (handleSave_spec ['a', ' '] ['a']).2.1.mpr (by decide)
  · exact (handleSave_spec ['b'] ['a']).1.mpr (by decide)

/-- C10: updating a model config by name is a no-op when the name is absent; when the
name exists, the updates are merged into that entry, every other `modelConfigs` entry
keeps its value, and the preferences, workspace and generation-settings slices are
unchanged. -/
theorem updateModelConfig_spec (s : SettingsState) (name : String) (u : ModelConfigPatch) :
    (updateModelConfig s name u).preferences = s.preferences ∧
    (updateModelConfig s name u).workspace = s.workspace ∧
    (updateModelConfig s name u).generationSettings = s.generationSettings ∧
    (alookup s.modelConfigs name = none → updateModelConfig s name u = s) ∧
    (∀ c, alookup s.modelConfigs name = some c →
      alookup (updateModelConfig s name u).modelConfigs name = some (applyPatch c u)) ∧
    (∀ k, k ≠ name → alookup (updateModelConfig s name u).modelConfigs k =
      alookup s.modelConfigs k) := by
  cases h : alookup s.modelConfigs name with
  | none =>
    have he : updateModelConfig s name u = s := by
      unfold updateModelConfig
      rw [h]
    rw [he]
    exact ⟨rfl, rfl, rfl, fun _ => rfl, fun c hc => absurd hc (by simp), fun k _ => rfl⟩
  | some c0 =>
    have he : updateModelConfig s name u =
        { s with modelConfigs := updateEntries s.modelConfigs name (fun c => applyPatch c u) } := by
      unfold updateModelConfig
      rw [h]
    rw [he]
    refine ⟨rfl, rfl, rfl, fun hn => absurd hn (by simp), fun c hc => ?_, fun k hk => ?_⟩
    · have hcc : c0 = c := by injection hc
      subst hcc
      have hm := alookup_updateEntries_self s.modelConfigs name (fun x => applyPatch x u)
      rw [h] at hm
      exact hm
    · exact alookup_updateEntries_ne s.modelConfigs name k hk (fun x => applyPatch x u)

/-- Default-valued concrete settings state used to witness the settings-store claim. -/
def sampleSettings : SettingsState :=
  { preferences :=
      ⟨false, "descendents", "bookmark", true, "overwrite", "edit", true, 14, 8, 10,
        false, true, "backup", true, true⟩
    workspace := ⟨⟨true, ["minimap"]⟩, ⟨false, []⟩, ["Edit", "Delete"], false, false⟩
    generationSettings := ⟨"gpt-4o-mini", 150, 4, 4 / 5, 1, 10, [], []⟩
    modelConfigs :=
      [("gpt-4o", ⟨"gpt-4o", "openai-chat", none, none⟩),
       ("gpt-4o-mini", ⟨"gpt-4o-mini", "openai-chat", none, none⟩)] }

/-- A concrete partial update for the witness. -/
def samplePatch : ModelConfigPatch := ⟨none, none, some "http://localhost:8080/v1", none⟩

/-- C10 witness: applying the spec at the concrete sample state, for an existing name
and a missing name. -/
theorem updateModelConfig_spec_witness :
    alookup (updateModelConfig sampleSettings "gpt-4o" samplePatch).modelConfigs "gpt-4o" =
      some (applyPatch ⟨"gpt-4o", "openai-chat", none, none⟩ samplePatch) ∧
    updateModelConfig sampleSettings "missing" samplePatch = sampleSettings := by
  constructor
  · exact (updateModelConfig_spec sampleSettings "gpt-4o" samplePatch).2.2.2.2.1 _ (by decide)
  · exact (updateModelConfig_spec sampleSettings "missing" samplePatch).2.2.2.1 (by decide)

/-! ### Layout claim C3: determinism -/

/-- C3: the layout computation is a pure function of the tree snapshot: it is embedded
as a function of (root id, node mapping) alone — the mutable position record and both
visited sets are created fresh per invocation (`LState ⟨[], [], []⟩`) and the node
mapping is only read — so two runs on equal snapshots return identical position maps. -/
theorem calculateLayout_deterministic (rootId1 rootId2 : String) (nodes1 nodes2 : NodeMap)
    (hr : rootId1 = rootId2) (hn : nodes1 = nodes2) :
    calculateLayout rootId1 nodes1 = calculateLayout rootId2 nodes2 := by
  rw [hr, hn]

/-- A small concrete tree: a root with two leaf children. -/
def pairTree : NodeMap := [("r", ⟨["c1", "c2"]⟩), ("c1", ⟨[]⟩), ("c2", ⟨[]⟩)]

/-- C3 witness: two runs on the same concrete snapshot agree. -/
theorem calculateLayout_deterministic_witness :
    calculateLayout "r" pairTree = calculateLayout "r" pairTree :=
  calculateLayout_deterministic "r" "r" pairTree pairTree rfl rfl

/-! ### Acyclic-tree witnesses

`IsSubtree nodes id S` says that `id` roots a well-formed subtree of the node mapping
whose member set is exactly the list `S`: `id` exists, every child of every member
exists, and no node is reachable twice (the child member-lists are mutually disjoint
and never contain their root).  This is the claims' "acyclic tree" hypothesis. -/
inductive IsSubtree (nodes : NodeMap) : String → List String → Prop where
  | mk (id : String) (nd : TreeNode) (ss : List (List String))
      (hlook : alookup nodes id = some nd)
      (hchild : List.Forall₂ (IsSubtree nodes) nd.children ss)
      (hdisj : List.Pairwise (fun s t => ∀ a ∈ s, a ∉ t) ss)
      (hroot : id ∉ ss.flatten) :
      IsSubtree nodes id (id :: ss.flatten)

theorem subtree_inv {nodes : NodeMap} {id : String} {S : List String}
    (h : IsSubtree nodes id S) :
    ∃ nd ss, alookup nodes id = some nd ∧ List.Forall₂ (IsSubtree nodes) nd.children ss ∧
      List.Pairwise (fun s t => ∀ a ∈ s, a ∉ t) ss ∧ id ∉ ss.flatten ∧
      S = id :: ss.flatten := by
  cases h with
  | mk _ nd ss hl hc hd hr => exact ⟨nd, ss, hl, hc, hd, hr, rfl⟩

theorem subtree_self_mem {nodes : NodeMap} {id : String} {S : List String}
    (h : IsSubtree nodes id S) : id ∈ S := by
  obtain ⟨_, _, _, _, _, _, rfl⟩ := subtree_inv h
  exact List.mem_cons_self _ _

theorem subtree_lookup {nodes : NodeMap} {id : String} {S : List String}
    (h : IsSubtree nodes id S) : ∃ nd, alookup nodes id = some nd := by
  obtain ⟨nd, _, hl, _⟩ := subtree_inv h
  exact ⟨nd, hl⟩

theorem mem_flatten_of {α : Type} {a : α} {S : List α} {ss : List (List α)}
    (hS : S ∈ ss) (ha : a ∈ S) : a ∈ ss.flatten :=
  List.mem_flatten.mpr ⟨S, hS, ha⟩

theorem length_le_flatten {α : Type} {S : List α} {ss : List (List α)} (hS : S ∈ ss) :
    S.length ≤ ss.flatten.length := by
  induction ss with
  | nil => cases hS
  | cons T ss ih =>
    rcases List.mem_cons.mp hS with rfl | hS'
    · simp [List.flatten_cons]
    · have := ih hS'
      simp only [List.flatten_cons, List.length_append]
      omega

theorem forall2_mem_left {R : String → List String → Prop} {cs : List String}
    {ss : List (List String)} (h : List.Forall₂ R cs ss) {c : String} (hc : c ∈ cs) :
    ∃ S, S ∈ ss ∧ R c S := by
  induction h with
  | nil => cases hc
  | cons hR hF ih =>
    rcases List.mem_cons.mp hc with rfl | hc'
    · exact ⟨_, List.mem_cons_self _ _, hR⟩
    · obtain ⟨S, hS, hRS⟩ := ih hc'
      exact ⟨S, List.mem_cons_of_mem _ hS, hRS⟩

theorem forall2_mem_right {R : String → List String → Prop} {cs : List String}
    {ss : List (List String)} (h : List.Forall₂ R cs ss) {S : List String} (hS : S ∈ ss) :
    ∃ c, c ∈ cs ∧ R c S := by
  induction h with
  | nil => cases hS
  | cons hR hF ih =>
    rcases List.mem_cons.mp hS with rfl | hS'
    · exact ⟨_, List.mem_cons_self _ _, hR⟩
    · obtain ⟨c, hc, hRc⟩ := ih hS'
      exact ⟨c, List.mem_cons_of_mem _ hc, hRc⟩

/-- Every member of a subtree roots a subtree whose members all lie in the outer one. -/
theorem subtree_sub {nodes : NodeMap} :
    ∀ (k : Nat) {id : String} {S : List String}, S.length ≤ k → IsSubtree nodes id S →
      ∀ p ∈ S, ∃ Sp, IsSubtree nodes p Sp ∧ (∀ a ∈ Sp, a ∈ S) := by
  intro k
  induction k with
  | zero =>
    intro id S hlen h p hp
    obtain ⟨_, _, _, _, _, _, rfl⟩ := subtree_inv h
    simp at hlen
  | succ k ih =>
    intro id S hlen h p hp
    obtain ⟨nd, ss, hl, hc, hd, hr, rfl⟩ := subtree_inv h
    rcases List.mem_cons.mp hp with rfl | hpf
    · exact ⟨_, h, fun a ha => ha⟩
    · obtain ⟨Si, hSi, hpSi⟩ := List.mem_flatten.mp hpf
      obtain ⟨c, _, hcder⟩ := forall2_mem_right hc hSi
      have hlen' : Si.length ≤ k := by
        have := length_le_flatten hSi
        simp only [List.length_cons] at hlen
        omega
      obtain ⟨Sp, hSp, hsub⟩ := ih hlen' hcder p hpSi
      exact ⟨Sp, hSp, fun a ha => List.mem_cons_of_mem _ (mem_flatten_of hSi (hsub a ha))⟩

theorem forall2_unique_aux {nodes : NodeMap} (k : Nat)
    (huniq : ∀ (c : String) (S S' : List String), S.length ≤ k →
      IsSubtree nodes c S → IsSubtree nodes c S' → S = S') :
    ∀ (cs : List String) (ss ss' : List (List String)), ss.flatten.length ≤ k →
      List.Forall₂ (IsSubtree nodes) cs ss → List.Forall₂ (IsSubtree nodes) cs ss' →
      ss = ss' := by
  intro cs
  induction cs with
  | nil =>
    intro ss ss' _ h h'
    cases h
    cases h'
    rfl
  | cons c rest ih =>
    intro ss ss' hlen h h'
    cases h with
    | cons hR hF =>
      cases h' with
      | cons hR' hF' =>
        have hb : _ := hlen
        simp only [List.flatten_cons, List.length_append] at hb
        have hhead := huniq c _ _ (by omega) hR hR'
        have htail := ih _ _ (by omega) hF hF'
        rw [hhead, htail]

/-- Subtree member lists are unique: the structure of `nodes` determines them. -/
theorem subtree_unique {nodes : NodeMap} :
    ∀ (k : Nat) {id : String} {S S' : List String}, S.length ≤ k →
      IsSubtree nodes id S → IsSubtree nodes id S' → S = S' := by
  intro k
  induction k with
  | zero =>
    intro id S S' hlen h h'
    obtain ⟨_, _, _, _, _, _, rfl⟩ := subtree_inv h
    simp at hlen
  | succ k ih =>
    intro id S S' hlen h h'
    obtain ⟨nd, ss, hl, hc, hd, hr, rfl⟩ := subtree_inv h
    obtain ⟨nd', ss', hl', hc', hd', hr', rfl⟩ := subtree_inv h'
    have hnd : nd = nd' := by
      rw [hl] at hl'
      injection hl'
    subst hnd
    have hss : ss = ss' := by
      refine forall2_unique_aux k (fun c S S' hlc => ih hlc) nd.children ss ss' ?_ hc hc'
      simp only [List.length_cons] at hlen
      omega
    rw [hss]

/-- Each child of a subtree member roots a subtree contained in the member's one. -/
theorem subtree_child {nodes : NodeMap} {p : String} {Sp : List String} {nd : TreeNode}
    (h : IsSubtree nodes p Sp) (hnd : alookup nodes p = some nd) {c : String}
    (hc : c ∈ nd.children) : ∃ Sc, IsSubtree nodes c Sc ∧ (∀ a ∈ Sc, a ∈ Sp) := by
  obtain ⟨nd', ss, hl, hch, hd, hr, rfl⟩ := subtree_inv h
  have hnd' : nd' = nd := by
    rw [hl] at hnd
    injection hnd
  subst hnd'
  obtain ⟨Sc, hSc, hder⟩ := forall2_mem_left hch hc
  exact ⟨Sc, hder, fun a ha => List.mem_cons_of_mem _ (mem_flatten_of hSc ha)⟩

theorem nodup_flatten_of_pairwise {ss : List (List String)}
    (hd : List.Pairwise (fun s t => ∀ a ∈ s, a ∉ t) ss)
    (hn : ∀ S ∈ ss, S.Nodup) : ss.flatten.Nodup := by
  induction ss with
  | nil => exact List.nodup_nil
  | cons S ss ih =>
    rw [List.flatten_cons, List.nodup_append]
    rcases List.pairwise_cons.mp hd with ⟨hhead, htail⟩
    refine ⟨hn S (List.mem_cons_self _ _), ih htail (fun T hT => hn T (List.mem_cons_of_mem _ hT)), ?_⟩
    intro a ha hf
    obtain ⟨T, hT, haT⟩ := List.mem_flatten.mp hf
    exact hhead T hT a ha haT

theorem subtree_nodup {nodes : NodeMap} :
    ∀ (k : Nat) {id : String} {S : List String}, S.length ≤ k → IsSubtree nodes id S →
      S.Nodup := by
  intro k
  induction k with
  | zero =>
    intro id S hlen h
    obtain ⟨_, _, _, _, _, _, rfl⟩ := subtree_inv h
    simp at hlen
  | succ k ih =>
    intro id S hlen h
    obtain ⟨nd, ss, hl, hc, hd, hr, rfl⟩ := subtree_inv h
    rw [List.nodup_cons]
    refine ⟨hr, nodup_flatten_of_pairwise hd ?_⟩
    intro T hT
    obtain ⟨c, _, hder⟩ := forall2_mem_right hc hT
    refine ih ?_ hder
    have := length_le_flatten hT
    simp only [List.length_cons] at hlen
    omega

theorem alookup_mem_keys {α : Type} {l : List (String × α)} {a : String} {v : α}
    (h : alookup l a = some v) : a ∈ l.map Prod.fst := by
  induction l with
  | nil => cases h
  | cons p rest ih =>
    obtain ⟨pk, pv⟩ := p
    by_cases hk : pk = a
    · subst hk
      exact List.mem_cons_self _ _
    · rw [alookup_cons, if_neg hk] at h
      exact List.mem_cons_of_mem _ (ih h)

/-- A subtree has at most as many members as the node mapping has entries. -/
theorem subtree_length_le {nodes : NodeMap} {id : String} {S : List String}
    (h : IsSubtree nodes id S) : S.length ≤ nodes.length := by
  have hnd : S.Nodup := subtree_nodup S.length le_rfl h
  have hsub : S ⊆ nodes.map Prod.fst := by
    intro a ha
    obtain ⟨Sp, hSp, _⟩ := subtree_sub S.length le_rfl h a ha
    obtain ⟨nd, hl⟩ := subtree_lookup hSp
    exact alookup_mem_keys hl
  have := (hnd.subperm hsub).length_le
  simpa using this

/-! ### Basic width facts -/

theorem calcWKids_ge_one {f : String → List String → Nat × List String}
    (hf : ∀ c v, 1 ≤ (f c v).1) :
    ∀ (cs : List String) (vis : List String), cs ≠ [] → 1 ≤ (calcWKids f cs vis).1 := by
  intro cs
  induction cs with
  | nil => intro vis h; cases h rfl
  | cons c rest ih =>
    intro vis _
    simp only [calcWKids]
    have := hf c vis
    omega

/-- The width function always returns at least 1. -/
theorem calcW_ge_one (nodes : NodeMap) :
    ∀ (fuel : Nat) (id : String) (vis : List String), 1 ≤ (calcW nodes fuel id vis).1 := by
  intro fuel
  induction fuel with
  | zero => intro id vis; simp [calcW]
  | succ fuel ih =>
    intro id vis
    simp only [calcW]
    cases alookup nodes id with
    | none => simp
    | some nd =>
      by_cases hv : id ∈ vis
      · simp [hv]
      · by_cases hc : nd.children = []
        · simp [hv, hc]
        · simp only [hv, if_false, hc, if_true, ite_false, ite_true]
          exact calcWKids_ge_one (fun c v => ih c v) nd.children (id :: vis) hc

/-- x offset of a child within the children loop: with width at least 1 the child is
placed at or to the right of the running `currentX`. -/
theorem childX_ge {w : Nat} (hw : 1 ≤ w) (cx : Int) :
    cx ≤ cx + ((w : Int) * horizontalSpacing) / 2 - horizontalSpacing / 2 := by
  show cx ≤ cx + ((w : Int) * 250) / 2 - 250 / 2
  have h2 : ((w : Int) * 250) / 2 = (w : Int) * 125 := by
    rw [show (250 : Int) = 125 * 2 by norm_num, ← mul_assoc]
    exact Int.mul_ediv_cancel _ (by norm_num)
  rw [h2]
  have : (1 : Int) ≤ (w : Int) := by exact_mod_cast hw
  omega

/-! ### Layout run postconditions

`GapAt ps Sa Sb`: every position recorded for a member of `Sa` lies at least
`horizontalSpacing` to the left of every position recorded for a member of `Sb`. -/
def GapAt (ps : List (String × (Int × Int))) (Sa Sb : List String) : Prop :=
  ∀ n ∈ Sa, ∀ m ∈ Sb, ∀ qn qm, alookup ps n = some qn → alookup ps m = some qm →
    qn.1 + horizontalSpacing ≤ qm.1

/-- At node `p`: any two sibling subtrees (children in stored order) occupy x-ranges
separated by at least `horizontalSpacing`, as recorded in the position map `ps`. -/
def DeepAt (nodes : NodeMap) (ps : List (String × (Int × Int))) (p : String) : Prop :=
  ∀ ndp, alookup nodes p = some ndp → ∀ ci cj Si Sj,
    List.Sublist [ci, cj] ndp.children → IsSubtree nodes ci Si → IsSubtree nodes cj Sj →
    ∀ n ∈ Si, ∀ m ∈ Sj, ∃ qn qm, alookup ps n = some qn ∧ alookup ps m = some qm ∧
      qn.1 + horizontalSpacing ≤ qm.1

/-- At node `p`: every stored child has a recorded position exactly
`verticalSpacing` below `p`'s. -/
def ChildYAt (nodes : NodeMap) (ps : List (String × (Int × Int))) (p : String) : Prop :=
  ∀ q, alookup ps p = some q → ∀ ndp, alookup nodes p = some ndp →
    ∀ c ∈ ndp.children, ∃ qc, alookup ps c = some qc ∧ qc.2 = q.2 + verticalSpacing

/-- At node `p`: `p`'s x is minimal among the recorded x's of its subtree members. -/
def MinXAt (nodes : NodeMap) (ps : List (String × (Int × Int))) (p : String) : Prop :=
  ∀ Sp, IsSubtree nodes p Sp → ∀ qp, alookup ps p = some qp →
    ∀ n ∈ Sp, ∀ qn, alookup ps n = some qn → qp.1 ≤ qn.1

/-- Postcondition of one `layout(id, x, y)` call on a well-formed subtree with member
list `S`, none of which was previously visited. -/
structure LayoutPost (nodes : NodeMap) (id : String) (S : List String) (x y : Int)
    (st : LState) (r : Int × LState) : Prop where
  retLB : x + horizontalSpacing ≤ r.1
  lvOut : ∀ a, a ∈ r.2.lv ↔ a ∈ S ∨ a ∈ st.lv
  rootPos : alookup r.2.positions id = some (x, y)
  memPos : ∀ a ∈ S, ∃ q, alookup r.2.positions a = some q ∧ x ≤ q.1 ∧
    q.1 + horizontalSpacing ≤ r.1
  frame : ∀ b, b ∉ S → alookup r.2.positions b = alookup st.positions b
  deepGap : ∀ p ∈ S, DeepAt nodes r.2.positions p
  childY : ∀ p ∈ S, ChildYAt nodes r.2.positions p
  minX : ∀ p ∈ S, MinXAt nodes r.2.positions p

/-- Postcondition of the children loop on a forest of well-formed subtrees. -/
structure KidsPost (nodes : NodeMap) (ss : List (List String)) (cs : List String)
    (cx y : Int) (st : LState) (r : Int × LState) : Prop where
  retLB : cx ≤ r.1
  lvOut : ∀ a, a ∈ r.2.lv ↔ a ∈ ss.flatten ∨ a ∈ st.lv
  memPos : ∀ a ∈ ss.flatten, ∃ q, alookup r.2.positions a = some q ∧ cx ≤ q.1 ∧
    q.1 + horizontalSpacing ≤ r.1
  frame : ∀ b, b ∉ ss.flatten → alookup r.2.positions b = alookup st.positions b
  kidRoots : ∀ c ∈ cs, ∃ xc : Int, alookup r.2.positions c = some (xc, y + verticalSpacing)
  pairGap : List.Pairwise (GapAt r.2.positions) ss
  deepGap : ∀ p ∈ ss.flatten, DeepAt nodes r.2.positions p
  childY : ∀ p ∈ ss.flatten, ChildYAt nodes r.2.positions p
  minX : ∀ p ∈ ss.flatten, MinXAt nodes r.2.positions p

theorem forall2_sublist_single {R : String → List String → Prop} {cs : List String}
    {ss : List (List String)} (h : List.Forall₂ R cs ss) :
    ∀ {b : String}, List.Sublist [b] cs → ∃ Sb, List.Sublist [Sb] ss ∧ R b Sb := by
  induction h with
  | nil =>
    intro b hsub
    cases hsub
  | cons hR hF ih =>
    intro b hsub
    cases hsub with
    | cons _ hsub' =>
      obtain ⟨Sb, hss, hRb⟩ := ih hsub'
      exact ⟨Sb, hss.cons _, hRb⟩
    | cons₂ _ hsub' =>
      exact ⟨_, (List.nil_sublist _).cons₂ _, hR⟩

theorem forall2_sublist_pair {R : String → List String → Prop} {cs : List String}
    {ss : List (List String)} (h : List.Forall₂ R cs ss) :
    ∀ {a b : String}, List.Sublist [a, b] cs →
      ∃ Sa Sb, List.Sublist [Sa, Sb] ss ∧ R a Sa ∧ R b Sb := by
  induction h with
  | nil =>
    intro a b hsub
    cases hsub
  | cons hR hF ih =>
    intro a b hsub
    cases hsub with
    | cons _ hsub' =>
      obtain ⟨Sa, Sb, hss, hRa, hRb⟩ := ih hsub'
      exact ⟨Sa, Sb, hss.cons _, hRa, hRb⟩
    | cons₂ _ hsub' =>
      obtain ⟨Sb, hss, hRb⟩ := forall2_sublist_single hF hsub'
      exact ⟨_, Sb, hss.cons₂ _, hR, hRb⟩

/-- The children loop of `layout`, run on a forest of pairwise-disjoint fresh
well-formed subtrees, satisfies `KidsPost` provided every recursive call on a fresh
well-formed subtree satisfies `LayoutPost`. -/
theorem layoutKids_post {nodes : NodeMap} (f : String → Int → Int → LState → Int × LState)
    (B : Nat)
    (hf : ∀ (id : String) (S : List String) (x y : Int) (st : LState), IsSubtree nodes id S →
      (∀ a ∈ S, a ∉ st.lv) → S.length ≤ B → LayoutPost nodes id S x y st (f id x y st)) :
    ∀ (cs : List String) (ss : List (List String)) (cx y : Int) (st : LState),
      List.Forall₂ (IsSubtree nodes) cs ss →
      List.Pairwise (fun s t => ∀ a ∈ s, a ∉ t) ss →
      (∀ a ∈ ss.flatten, a ∉ st.lv) → ss.flatten.length ≤ B →
      KidsPost nodes ss cs cx y st (layoutKids nodes f cs cx y st) := by
  intro cs
  induction cs with
  | nil =>
    intro ss cx y st hforall hdisj hfresh hlen
    cases hforall
    refine ⟨le_rfl, ?_, ?_, ?_, ?_, ?_, ?_, ?_, ?_⟩
    · intro a
      simp [layoutKids]
    · intro a ha
      simp at ha
    · intro b _
      rfl
    · intro c hc
      cases hc
    · exact List.Pairwise.nil
    · intro p hp
      simp at hp
    · intro p hp
      simp at hp
    · intro p hp
      simp at hp
  | cons c rest ih =>
    intro ss cx y st hforall hdisj hfresh hlen
    cases hforall with
    | @cons _ Sc _ ss' hR hF =>
      obtain ⟨hhead, htail⟩ := List.pairwise_cons.mp hdisj
      set wr := calcW nodes (nodes.length + 1) c st.wv with hwrdef
      set childX := cx + ((wr.1 : Int) * horizontalSpacing) / 2 - horizontalSpacing / 2
        with hcxdef
      set st' : LState := { st with wv := wr.2 } with hstdef
      set rh := f c childX (y + verticalSpacing) st' with hrhdef
      have hdef : layoutKids nodes f (c :: rest) cx y st =
          layoutKids nodes f rest rh.1 y rh.2 := rfl
      rw [hdef]
      set rt := layoutKids nodes f rest rh.1 y rh.2 with hrtdef
      have hmemflat : ∀ a, a ∈ (Sc :: ss').flatten ↔ a ∈ Sc ∨ a ∈ ss'.flatten := by
        intro a
        rw [List.flatten_cons, List.mem_append]
      have hdisjSc : ∀ a ∈ Sc, a ∉ ss'.flatten := by
        intro a ha hmem
        obtain ⟨T, hT, haT⟩ := List.mem_flatten.mp hmem
        exact hhead T hT a ha haT
      have hlenSc : Sc.length ≤ B :=
        le_trans (length_le_flatten (List.mem_cons_self _ _)) hlen
      have hlen' : ss'.flatten.length ≤ B := by
        have hsum : (Sc :: ss').flatten.length = Sc.length + ss'.flatten.length := by
          rw [List.flatten_cons, List.length_append]
        omega
      have hfreshSc : ∀ a ∈ Sc, a ∉ st'.lv := by
        intro a ha
        exact hfresh a ((hmemflat a).mpr (Or.inl ha))
      have HP : LayoutPost nodes c Sc childX (y + verticalSpacing) st' rh :=
        hf c Sc childX (y + verticalSpacing) st' hR hfreshSc hlenSc
      have hfresh' : ∀ a ∈ ss'.flatten, a ∉ rh.2.lv := by
        intro a ha hmem
        rcases (HP.lvOut a).mp hmem with hSc | hlv
        · exact hdisjSc a hSc ha
        · exact hfresh a ((hmemflat a).mpr (Or.inr ha)) hlv
      have KT : KidsPost nodes ss' rest rh.1 y rh.2 rt :=
        ih ss' rh.1 y rh.2 hF htail hfresh' hlen'
      have hw1 : 1 ≤ wr.1 := calcW_ge_one nodes (nodes.length + 1) c st.wv
      have hcxle : cx ≤ childX := childX_ge hw1 cx
      have hsp : (0 : Int) < horizontalSpacing := by decide
      have hrh1 : childX + horizontalSpacing ≤ rh.1 := HP.retLB
      refine ⟨?_, ?_, ?_, ?_, ?_, ?_, ?_, ?_, ?_⟩
      · have h1 := KT.retLB
        omega
      · intro a
        rw [hmemflat a, KT.lvOut a, HP.lvOut a]
        have hlv : st'.lv = st.lv := rfl
        rw [hlv]
        tauto
      · intro a ha
        rcases (hmemflat a).mp ha with hSc | hss'
        · obtain ⟨q, hq, hxq, hqr⟩ := HP.memPos a hSc
          have hlook : alookup rt.2.positions a = some q := by
            rw [KT.frame a (hdisjSc a hSc)]
            exact hq
          refine ⟨q, hlook, by omega, ?_⟩
          have h2 := KT.retLB
          omega
        · obtain ⟨q, hq, hgeq, hqr⟩ := KT.memPos a hss'
          exact ⟨q, hq, by omega, hqr⟩
      · intro b hb
        have hbSc : b ∉ Sc := fun h => hb ((hmemflat b).mpr (Or.inl h))
        have hbss : b ∉ ss'.flatten := fun h => hb ((hmemflat b).mpr (Or.inr h))
        rw [KT.frame b hbss, HP.frame b hbSc]
      · intro c' hc'
        rcases List.mem_cons.mp hc' with rfl | hc''
        · have hcSc : c' ∈ Sc := subtree_self_mem hR
          refine ⟨childX, ?_⟩
          rw [KT.frame c' (hdisjSc c' hcSc)]
          exact HP.rootPos
        · exact KT.kidRoots c' hc''
      · refine List.Pairwise.cons ?_ KT.pairGap
        intro T hT n hn m hm qn qm hqn hqm
        obtain ⟨q, hq, hxq, hqr⟩ := HP.memPos n hn
        have hlookn : alookup rt.2.positions n = some q := by
          rw [KT.frame n (hdisjSc n hn)]
          exact hq
        rw [hlookn] at hqn
        injection hqn with hqn
        obtain ⟨q', hq', hgeq', hqr'⟩ := KT.memPos m (mem_flatten_of hT hm)
        rw [hq'] at hqm
        injection hqm with hqm
        subst hqn
        subst hqm
        omega
      · intro p hp
        rcases (hmemflat p).mp hp with hpSc | hpss
        · intro ndp hndp ci cj Si Sj hsub hSi hSj n hn m hm
          obtain ⟨Sp, hSp, hSpSub⟩ := subtree_sub Sc.length le_rfl hR p hpSc
          have hci : ci ∈ ndp.children := hsub.subset (List.mem_cons_self _ _)
          have hcj : cj ∈ ndp.children :=
            hsub.subset (List.mem_cons_of_mem _ (List.mem_cons_self _ _))
          obtain ⟨Si', hSi', hSiSub⟩ := subtree_child hSp hndp hci
          obtain ⟨Sj', hSj', hSjSub⟩ := subtree_child hSp hndp hcj
          have hSieq : Si = Si' := subtree_unique Si.length le_rfl hSi hSi'
          have hSjeq : Sj = Sj' := subtree_unique Sj.length le_rfl hSj hSj'
          have hnSc : n ∈ Sc := hSpSub _ (hSiSub _ (hSieq ▸ hn))
          have hmSc : m ∈ Sc := hSpSub _ (hSjSub _ (hSjeq ▸ hm))
          obtain ⟨qn, qm, hqn, hqm, hgap⟩ :=
            HP.deepGap p hpSc ndp hndp ci cj Si Sj hsub hSi hSj n hn m hm
          refine ⟨qn, qm, ?_, ?_, hgap⟩
          · rw [KT.frame n (hdisjSc n hnSc)]
            exact hqn
          · rw [KT.frame m (hdisjSc m hmSc)]
            exact hqm
        · exact KT.deepGap p hpss
      · intro p hp
        rcases (hmemflat p).mp hp with hpSc | hpss
        · intro q hq ndp hndp c' hc'
          have hlookp : alookup rh.2.positions p = some q := by
            rw [← KT.frame p (hdisjSc p hpSc)]
            exact hq
          obtain ⟨qc, hqc, hyeq⟩ := HP.childY p hpSc q hlookp ndp hndp c' hc'
          obtain ⟨Sp, hSp, hSpSub⟩ := subtree_sub Sc.length le_rfl hR p hpSc
          obtain ⟨Sc', hSc', hScSub⟩ := subtree_child hSp hndp hc'
          have hcSc : c' ∈ Sc := hSpSub _ (hScSub _ (subtree_self_mem hSc'))
          refine ⟨qc, ?_, hyeq⟩
          rw [KT.frame c' (hdisjSc c' hcSc)]
          exact hqc
        · exact KT.childY p hpss
      · intro p hp
        rcases (hmemflat p).mp hp with hpSc | hpss
        · intro Sp hSp qp hqp n hn qn hqn
          obtain ⟨Sp', hSp', hSpSub⟩ := subtree_sub Sc.length le_rfl hR p hpSc
          have hSpeq : Sp = Sp' := subtree_unique Sp.length le_rfl hSp hSp'
          have hnSc : n ∈ Sc := hSpSub _ (hSpeq ▸ hn)
          have hqp' : alookup rh.2.positions p = some qp := by
            rw [← KT.frame p (hdisjSc p hpSc)]
            exact hqp
          have hqn' : alookup rh.2.positions n = some qn := by
            rw [← KT.frame n (hdisjSc n hnSc)]
            exact hqn
          exact HP.minX p hpSc Sp hSp qp hqp' n hn qn hqn'
        · exact KT.minX p hpss

/-- Main invariant of `layout`: a call on a fresh well-formed subtree with enough fuel
satisfies `LayoutPost`. -/
theorem layoutF_post {nodes : NodeMap} :
    ∀ (fuel : Nat) (id : String) (S : List String) (x y : Int) (st : LState),
      IsSubtree nodes id S → (∀ a ∈ S, a ∉ st.lv) → S.length ≤ fuel →
      LayoutPost nodes id S x y st (layoutF nodes fuel id x y st) := by
  intro fuel
  induction fuel with
  | zero =>
    intro id S x y st h hfresh hlen
    obtain ⟨_, _, _, _, _, _, rfl⟩ := subtree_inv h
    simp at hlen
  | succ fuel ih =>
    intro id S x y st h hfresh hlen
    obtain ⟨nd, ss, hl, hc, hd, hr, rfl⟩ := subtree_inv h
    have hniv : id ∉ st.lv := hfresh id (List.mem_cons_self _ _)
    set st1 : LState :=
      { st with lv := id :: st.lv, positions := (id, (x, y)) :: st.positions } with hst1
    set rk := layoutKids nodes (fun c cx cy s => layoutF nodes fuel c cx cy s)
      nd.children x y st1 with hrkdef
    have hdef : layoutF nodes (fuel + 1) id x y st =
        (max rk.1 (x + horizontalSpacing), rk.2) := by
      simp only [layoutF, hl]
      rw [if_neg hniv]
    rw [hdef]
    have hflen : ss.flatten.length ≤ fuel := by
      simp only [List.length_cons] at hlen
      omega
    have hfreshk : ∀ a ∈ ss.flatten, a ∉ st1.lv := by
      intro a ha hmem
      have hmem' : a ∈ id :: st.lv := hmem
      rcases List.mem_cons.mp hmem' with rfl | hlv
      · exact hr ha
      · exact hfresh a (List.mem_cons_of_mem _ ha) hlv
    have KP : KidsPost nodes ss nd.children x y st1 rk :=
      layoutKids_post (fun c cx cy s => layoutF nodes fuel c cx cy s) fuel
        (fun id' S' x' y' st'' hS' hfr' hln' => ih id' S' x' y' st'' hS' hfr' hln')
        nd.children ss x y st1 hc hd hfreshk hflen
    have hrootLook : alookup rk.2.positions id = some (x, y) := by
      rw [KP.frame id hr]
      show alookup ((id, (x, y)) :: st.positions) id = some (x, y)
      rw [alookup_cons, if_pos rfl]
    refine ⟨le_max_right _ _, ?_, hrootLook, ?_, ?_, ?_, ?_, ?_⟩
    · intro a
      rw [KP.lvOut a]
      have hlv : st1.lv = id :: st.lv := rfl
      rw [hlv]
      simp only [List.mem_cons]
      tauto
    · intro a ha
      rcases List.mem_cons.mp ha with rfl | haf
      · exact ⟨(x, y), hrootLook, le_rfl, le_max_right _ _⟩
      · obtain ⟨q, hq, hxq, hqr⟩ := KP.memPos a haf
        exact ⟨q, hq, hxq, le_trans hqr (le_max_left _ _)⟩
    · intro b hb
      have hbid : b ≠ id := fun hbe => hb (hbe ▸ List.mem_cons_self _ _)
      have hbf : b ∉ ss.flatten := fun hbe => hb (List.mem_cons_of_mem _ hbe)
      rw [KP.frame b hbf]
      show alookup ((id, (x, y)) :: st.positions) b = alookup st.positions b
      rw [alookup_cons, if_neg (fun hbe => hbid hbe.symm)]
    · intro p hp
      rcases List.mem_cons.mp hp with rfl | hpf
      · intro ndp hndp ci cj Si Sj hsub hSi hSj n hn m hm
        have hndeq : nd = ndp := by
          rw [hl] at hndp
          injection hndp
        subst hndeq
        obtain ⟨Sa, Sb, hssub, hRa, hRb⟩ := forall2_sublist_pair hc hsub
        have hSaeq : Si = Sa := subtree_unique Si.length le_rfl hSi hRa
        have hSbeq : Sj = Sb := subtree_unique Sj.length le_rfl hSj hRb
        have hpair : GapAt rk.2.positions Sa Sb := by
          have hsubp := KP.pairGap.sublist hssub
          exact (List.pairwise_cons.mp hsubp).1 Sb (List.mem_cons_self _ _)
        have hSass : Sa ∈ ss := hssub.subset (List.mem_cons_self _ _)
        have hSbss : Sb ∈ ss :=
          hssub.subset (List.mem_cons_of_mem _ (List.mem_cons_self _ _))
        obtain ⟨qn, hqn, _, _⟩ := KP.memPos n (mem_flatten_of hSass (hSaeq ▸ hn))
        obtain ⟨qm, hqm, _, _⟩ := KP.memPos m (mem_flatten_of hSbss (hSbeq ▸ hm))
        exact ⟨qn, qm, hqn, hqm, hpair n (hSaeq ▸ hn) m (hSbeq ▸ hm) qn qm hqn hqm⟩
      · exact KP.deepGap p hpf
    · intro p hp
      rcases List.mem_cons.mp hp with rfl | hpf
      · intro q hq ndp hndp c' hc'
        have hqeq : (x, y) = q := by
          rw [hrootLook] at hq
          injection hq
        have hndeq : nd = ndp := by
          rw [hl] at hndp
          injection hndp
        subst hndeq
        obtain ⟨xc, hxc⟩ := KP.kidRoots c' hc'
        refine ⟨(xc, y + verticalSpacing), hxc, ?_⟩
        rw [← hqeq]
      · exact KP.childY p hpf
    · intro p hp
      rcases List.mem_cons.mp hp with rfl | hpf
      · intro Sp hSp qp hqp n hn qn hqn
        have hSpeq : Sp = p :: ss.flatten := subtree_unique Sp.length le_rfl hSp h
        have hqpeq : (x, y) = qp := by
          rw [hrootLook] at hqp
          injection hqp
        rcases List.mem_cons.mp (hSpeq ▸ hn) with rfl | hnf
        · have hqneq : (x, y) = qn := by
            rw [hrootLook] at hqn
            injection hqn
          rw [← hqpeq, ← hqneq]
        · obtain ⟨q, hql, hxq, _⟩ := KP.memPos n hnf
          rw [hql] at hqn
          injection hqn with hqn
          rw [← hqpeq, ← hqn]
          exact hxq
      · exact KP.minX p hpf

/-- Instantiation of the main invariant at the `calculateLayout` entry point
(fresh state, fuel `nodes.length + 1`). -/
theorem calculateLayout_post {nodes : NodeMap} {rootId : String} {S : List String}
    (h : IsSubtree nodes rootId S) :
    LayoutPost nodes rootId S 0 0 ⟨[], [], []⟩
      (layoutF nodes (nodes.length + 1) rootId 0 0 ⟨[], [], []⟩) :=
  layoutF_post (nodes.length + 1) rootId S 0 0 ⟨[], [], []⟩ h
    (fun a _ => List.not_mem_nil a)
    (by have := subtree_length_le h; omega)

/-- C1: on an acyclic tree (well-formed subtree witness), for any node `p` of the tree
and any two children `ci` before `cj` in `p`'s stored children order, every node `n`
of `ci`'s subtree is placed strictly to the left of every node `m` of `cj`'s subtree,
with a horizontal gap of at least `horizontalSpacing`. -/
theorem layout_sibling_subtrees_gap (nodes : NodeMap) (rootId : String) (S : List String)
    (htree : IsSubtree nodes rootId S)
    (p : String) (hp : p ∈ S) (ndp : TreeNode) (hndp : alookup nodes p = some ndp)
    (ci cj : String) (hsub : List.Sublist [ci, cj] ndp.children)
    (Si Sj : List String) (hSi : IsSubtree nodes ci Si) (hSj : IsSubtree nodes cj Sj)
    (n : String) (hn : n ∈ Si) (m : String) (hm : m ∈ Sj) :
    ∃ qn qm, alookup (calculateLayout rootId nodes) n = some qn ∧
      alookup (calculateLayout rootId nodes) m = some qm ∧
      qn.1 < qm.1 ∧ qn.1 + horizontalSpacing ≤ qm.1 := by
  have post := calculateLayout_post htree
  obtain ⟨qn, qm, hqn, hqm, hgap⟩ :=
    post.deepGap p hp ndp hndp ci cj Si Sj hsub hSi hSj n hn m hm
  have hsp : (0 : Int) < horizontalSpacing := by decide
  exact ⟨qn, qm, hqn, hqm, by omega, hgap⟩

/-- Well-formedness derivation for the concrete two-leaf tree. -/
theorem pairTree_subtree : IsSubtree pairTree "r" ["r", "c1", "c2"] := by
  have h1 : IsSubtree pairTree "c1" ["c1"] :=
    IsSubtree.mk "c1" ⟨[]⟩ [] rfl List.Forall₂.nil List.Pairwise.nil (by simp)
  have h2 : IsSubtree pairTree "c2" ["c2"] :=
    IsSubtree.mk "c2" ⟨[]⟩ [] rfl List.Forall₂.nil List.Pairwise.nil (by simp)
  exact IsSubtree.mk "r" ⟨["c1", "c2"]⟩ [["c1"], ["c2"]] rfl
    (List.Forall₂.cons h1 (List.Forall₂.cons h2 List.Forall₂.nil))
    (by simp) (by simp)

/-- C1 witness: the sibling-gap theorem applied to the concrete two-leaf tree. -/
theorem layout_sibling_subtrees_gap_witness :
    ∃ qn qm, alookup (calculateLayout "r" pairTree) "c1" = some qn ∧
      alookup (calculateLayout "r" pairTree) "c2" = some qm ∧
      qn.1 < qm.1 ∧ qn.1 + horizontalSpacing ≤ qm.1 :=
  layout_sibling_subtrees_gap pairTree "r" ["r", "c1", "c2"] pairTree_subtree
    "r" (by decide) ⟨["c1", "c2"]⟩ rfl
    "c1" "c2" (List.Sublist.refl _)
    ["c1"] ["c2"]
    (IsSubtree.mk "c1" ⟨[]⟩ [] rfl List.Forall₂.nil List.Pairwise.nil (by simp))
    (IsSubtree.mk "c2" ⟨[]⟩ [] rfl List.Forall₂.nil List.Pairwise.nil (by simp))
    "c1" (by decide) "c2" (by decide)

/-- C7: on an acyclic tree, children are laid out left to right in stored order: if
`a` precedes `b` in a node's children sequence then `a`'s x is strictly below `b`'s. -/
theorem layout_children_ordered (nodes : NodeMap) (rootId : String) (S : List String)
    (htree : IsSubtree nodes rootId S)
    (p : String) (hp : p ∈ S) (ndp : TreeNode) (hndp : alookup nodes p = some ndp)
    (a b : String) (hsub : List.Sublist [a, b] ndp.children) :
    ∃ qa qb, alookup (calculateLayout rootId nodes) a = some qa ∧
      alookup (calculateLayout rootId nodes) b = some qb ∧ qa.1 < qb.1 := by
  obtain ⟨Sp, hSp, _⟩ := subtree_sub S.length le_rfl htree p hp
  have ha : a ∈ ndp.children := hsub.subset (List.mem_cons_self _ _)
  have hb : b ∈ ndp.children :=
    hsub.subset (List.mem_cons_of_mem _ (List.mem_cons_self _ _))
  obtain ⟨Sa, hSa, _⟩ := subtree_child hSp hndp ha
  obtain ⟨Sb, hSb, _⟩ := subtree_child hSp hndp hb
  have post := calculateLayout_post htree
  obtain ⟨qa, qb, hqa, hqb, hgap⟩ :=
    post.deepGap p hp ndp hndp a b Sa Sb hsub hSa hSb a (subtree_self_mem hSa)
      b (subtree_self_mem hSb)
  have hsp : (0 : Int) < horizontalSpacing := by decide
  exact ⟨qa, qb, hqa, hqb, by omega⟩

/-- C7 witness: the two children of the concrete two-leaf tree appear in order. -/
theorem layout_children_ordered_witness :
    ∃ qa qb, alookup (calculateLayout "r" pairTree) "c1" = some qa ∧
      alookup (calculateLayout "r" pairTree) "c2" = some qb ∧ qa.1 < qb.1 :=
  layout_children_ordered pairTree "r" ["r", "c1", "c2"] pairTree_subtree
    "r" (by decide) ⟨["c1", "c2"]⟩ rfl "c1" "c2" (List.Sublist.refl _)

/-- C6: on an acyclic tree the root is placed at y = 0 and every stored child of
every tree node is placed exactly `verticalSpacing` below its parent, so y equals
depth times `verticalSpacing`. -/
theorem layout_y_by_depth (nodes : NodeMap) (rootId : String) (S : List String)
    (htree : IsSubtree nodes rootId S) :
    (∃ q, alookup (calculateLayout rootId nodes) rootId = some q ∧ q.2 = 0) ∧
    (∀ p ∈ S, ∀ q, alookup (calculateLayout rootId nodes) p = some q →
      ∀ ndp, alookup nodes p = some ndp → ∀ c ∈ ndp.children,
      ∃ qc, alookup (calculateLayout rootId nodes) c = some qc ∧
        qc.2 = q.2 + verticalSpacing) := by
  have post := calculateLayout_post htree
  exact ⟨⟨(0, 0), post.rootPos, rfl⟩,
    fun p hp q hq ndp hndp c hc => post.childY p hp q hq ndp hndp c hc⟩

/-- C6 witness: the depth-proportional-y theorem applied to the two-leaf tree. -/
theorem layout_y_by_depth_witness :
    ∃ q, alookup (calculateLayout "r" pairTree) "r" = some q ∧ q.2 = 0 :=
  (layout_y_by_depth pairTree "r" ["r", "c1", "c2"] pairTree_subtree).1

/-- C5 counterexample: on the concrete two-leaf tree the root is placed at x = 0
while its children sit at x = 0 and x = 250: the root's x is the left edge of the
children's x-extent, not its center (the midpoint 125 = (0 + 250) / 2 differs
from 0), refuting the claim that a parent is centered over its children. -/
theorem layout_parent_not_centered_cex :
    alookup (calculateLayout "r" pairTree) "r" = some (0, 0) ∧
    alookup (calculateLayout "r" pairTree) "c1" = some (0, 120) ∧
    alookup (calculateLayout "r" pairTree) "c2" = some (250, 120) ∧
    (0 : Int) ≠ (0 + 250) / 2 := by
  exact ⟨rfl, rfl, rfl, by decide⟩

/-- C5 (amended): on an acyclic tree, the x assigned to a node is the minimum x over
its whole subtree: the node sits at the left edge of its subtree's x-extent (its
children and their descendants are placed at or to the right of it), not centered. -/
theorem layout_parent_left_edge (nodes : NodeMap) (rootId : String) (S : List String)
    (htree : IsSubtree nodes rootId S)
    (p : String) (hp : p ∈ S) (Sp : List String) (hSp : IsSubtree nodes p Sp)
    (qp : Int × Int) (hqp : alookup (calculateLayout rootId nodes) p = some qp)
    (n : String) (hn : n ∈ Sp) (qn : Int × Int)
    (hqn : alookup (calculateLayout rootId nodes) n = some qn) :
    qp.1 ≤ qn.1 :=
  (calculateLayout_post htree).minX p hp Sp hSp qp hqp n hn qn hqn

/-- C5 witness: the left-edge theorem applied to the two-leaf tree: the root's x is
at most the right child's x. -/
theorem layout_parent_left_edge_witness :
    ((0, 0) : Int × Int).1 ≤ ((250, 120) : Int × Int).1 :=
  layout_parent_left_edge pairTree "r" ["r", "c1", "c2"] pairTree_subtree
    "r" (by decide) ["r", "c1", "c2"] pairTree_subtree (0, 0) rfl
    "c2" (by decide) (250, 120) rfl

/-! ### Termination of the layout recursion on arbitrary input

`remCount nodes lv` counts entries of the node mapping whose key is not yet visited:
the strictly decreasing measure of both recursions. -/
def remCount (nodes : NodeMap) (lv : List String) : Nat :=
  ((nodes.map Prod.fst).filter (fun k => decide (k ∉ lv))).length

theorem length_filter_mono {α : Type} (l : List α) (p q : α → Bool)
    (hpq : ∀ a, q a = true → p a = true) :
    (l.filter q).length ≤ (l.filter p).length := by
  induction l with
  | nil => exact le_rfl
  | cons b t ih =>
    by_cases hq : q b = true
    · have hp := hpq b hq
      simp only [List.filter_cons, hq, hp, if_true, List.length_cons]
      omega
    · simp only [List.filter_cons, hq, if_false, Bool.false_eq_true]
      by_cases hp : p b = true
      · simp only [hp, if_true, List.length_cons]
        omega
      · simp only [hp, if_false, Bool.false_eq_true]
        exact ih

theorem length_filter_lt {α : Type} (l : List α) (p q : α → Bool)
    (hpq : ∀ a, q a = true → p a = true) (a : α) (ha : a ∈ l) (hpa : p a = true)
    (hqa : q a = false) :
    (l.filter q).length < (l.filter p).length := by
  induction l with
  | nil => cases ha
  | cons b t ih =>
    rcases List.mem_cons.mp ha with rfl | ha'
    · simp only [List.filter_cons, hqa, hpa, if_true, if_false, Bool.false_eq_true,
        List.length_cons]
      exact Nat.lt_succ_of_le (length_filter_mono t p q hpq)
    · by_cases hq : q b = true
      · have hp := hpq b hq
        simp only [List.filter_cons, hq, hp, if_true, List.length_cons]
        exact Nat.succ_lt_succ (ih ha')
      · have h1 := ih ha'
        simp only [List.filter_cons, hq, if_false, Bool.false_eq_true]
        by_cases hp : p b = true
        · simp only [hp, if_true, List.length_cons]
          omega
        · simp only [hp, if_false, Bool.false_eq_true]
          exact h1

theorem remCount_le_of_subset (nodes : NodeMap) {lv lv' : List String}
    (h : ∀ a ∈ lv, a ∈ lv') : remCount nodes lv' ≤ remCount nodes lv := by
  refine length_filter_mono (nodes.map Prod.fst) _ _ ?_
  intro a ha
  rw [decide_eq_true_iff] at ha ⊢
  exact fun hmem => ha (h a hmem)

theorem remCount_lt_cons (nodes : NodeMap) {lv : List String} {id : String}
    (hk : id ∈ nodes.map Prod.fst) (hniv : id ∉ lv) :
    remCount nodes (id :: lv) < remCount nodes lv := by
  refine length_filter_lt (nodes.map Prod.fst) _ _ ?_ id hk ?_ ?_
  · intro a ha
    rw [decide_eq_true_iff] at ha ⊢
    exact fun hmem => ha (List.mem_cons_of_mem _ hmem)
  · rw [decide_eq_true_iff]
    exact hniv
  · rw [decide_eq_false_iff_not]
    intro hmem
    exact hmem (List.mem_cons_self _ _)

theorem remCount_le_length (nodes : NodeMap) (lv : List String) :
    remCount nodes lv ≤ nodes.length := by
  have h1 : remCount nodes lv ≤ (nodes.map Prod.fst).length := List.length_filter_le _ _
  simpa using h1

/-! ### Visited-set growth -/

theorem calcWKids_vis_grow {f : String → List String → Nat × List String}
    (hf : ∀ c v, ∀ a ∈ v, a ∈ (f c v).2) :
    ∀ (cs vis : List String), ∀ a ∈ vis, a ∈ (calcWKids f cs vis).2 := by
  intro cs
  induction cs with
  | nil =>
    intro vis a ha
    exact ha
  | cons c rest ih =>
    intro vis a ha
    exact ih (f c vis).2 a (hf c vis a ha)

theorem calcW_vis_grow (nodes : NodeMap) :
    ∀ (fuel : Nat) (id : String) (vis : List String), ∀ a ∈ vis,
      a ∈ (calcW nodes fuel id vis).2 := by
  intro fuel
  induction fuel with
  | zero =>
    intro id vis a ha
    exact ha
  | succ fuel ih =>
    intro id vis a ha
    cases hl : alookup nodes id with
    | none =>
      simp only [calcW, hl]
      exact ha
    | some nd =>
      by_cases hin : id ∈ vis
      · simp only [calcW, hl, if_pos hin]
        exact ha
      · by_cases hce : nd.children = []
        · simp only [calcW, hl, if_neg hin, if_pos hce]
          exact List.mem_cons_of_mem _ ha
        · simp only [calcW, hl, if_neg hin, if_neg hce]
          exact calcWKids_vis_grow (fun c v a' ha' => ih c v a' ha') nd.children (id :: vis)
            a (List.mem_cons_of_mem _ ha)

theorem layoutKids_lv_grow {nodes : NodeMap}
    {f : String → Int → Int → LState → Int × LState}
    (hf : ∀ c cx cy s, ∀ a ∈ s.lv, a ∈ (f c cx cy s).2.lv) :
    ∀ (cs : List String) (cx y : Int) (st : LState), ∀ a ∈ st.lv,
      a ∈ (layoutKids nodes f cs cx y st).2.lv := by
  intro cs
  induction cs with
  | nil =>
    intro cx y st a ha
    exact ha
  | cons c rest ih =>
    intro cx y st a ha
    exact ih _ y _ a (hf c _ _ { st with wv := (calcW nodes (nodes.length + 1) c st.wv).2 } a ha)

theorem layoutF_lv_grow (nodes : NodeMap) :
    ∀ (fuel : Nat) (id : String) (x y : Int) (st : LState), ∀ a ∈ st.lv,
      a ∈ (layoutF nodes fuel id x y st).2.lv := by
  intro fuel
  induction fuel with
  | zero =>
    intro id x y st a ha
    exact ha
  | succ fuel ih =>
    intro id x y st a ha
    cases hl : alookup nodes id with
    | none =>
      simp only [layoutF, hl]
      exact ha
    | some nd =>
      by_cases hin : id ∈ st.lv
      · simp only [layoutF, hl, if_pos hin]
        exact ha
      · simp only [layoutF, hl, if_neg hin]
        exact layoutKids_lv_grow (fun c cx cy s a' ha' => ih c cx cy s a' ha')
          nd.children x y _ a (List.mem_cons_of_mem _ ha)

/-! ### Fuel stability: the recursions terminate -/

theorem calcW_stable (nodes : NodeMap) :
    ∀ (fuel : Nat) (id : String) (vis : List String), remCount nodes vis < fuel →
      calcW nodes fuel id vis = calcW nodes (fuel + 1) id vis := by
  intro fuel
  induction fuel with
  | zero =>
    intro id vis h
    omega
  | succ fuel ih =>
    intro id vis hrem
    cases hl : alookup nodes id with
    | none =>
      simp only [calcW, hl]
    | some nd =>
      by_cases hin : id ∈ vis
      · simp only [calcW, hl, if_pos hin]
      · by_cases hce : nd.children = []
        · simp only [calcW, hl, if_neg hin, if_pos hce]
        · simp only [calcW, hl, if_neg hin, if_neg hce]
          have hkey : id ∈ nodes.map Prod.fst := alookup_mem_keys hl
          have hbud : remCount nodes (id :: vis) < fuel := by
            have := remCount_lt_cons nodes hkey hin
            omega
          have hkids : ∀ (cs : List String) (vis' : List String),
              remCount nodes vis' < fuel →
              calcWKids (fun c v => calcW nodes fuel c v) cs vis' =
              calcWKids (fun c v => calcW nodes (fuel + 1) c v) cs vis' := by
            intro cs
            induction cs with
            | nil =>
              intro vis' _
              rfl
            | cons c rest ihk =>
              intro vis' hb
              have h1 : calcW nodes fuel c vis' = calcW nodes (fuel + 1) c vis' :=
                ih c vis' hb
              simp only [calcWKids]
              rw [h1]
              have hb2 : remCount nodes (calcW nodes (fuel + 1) c vis').2 < fuel := by
                have hg := calcW_vis_grow nodes (fuel + 1) c vis'
                have := remCount_le_of_subset nodes hg
                omega
              rw [ihk (calcW nodes (fuel + 1) c vis').2 hb2]
          exact hkids nd.children (id :: vis) hbud

theorem layoutF_stable (nodes : NodeMap) :
    ∀ (fuel : Nat) (id : String) (x y : Int) (st : LState), remCount nodes st.lv < fuel →
      layoutF nodes fuel id x y st = layoutF nodes (fuel + 1) id x y st := by
  intro fuel
  induction fuel with
  | zero =>
    intro id x y st h
    omega
  | succ fuel ih =>
    intro id x y st hrem
    cases hl : alookup nodes id with
    | none =>
      simp only [layoutF, hl]
    | some nd =>
      by_cases hin : id ∈ st.lv
      · simp only [layoutF, hl, if_pos hin]
      · simp only [layoutF, hl, if_neg hin]
        have hkey : id ∈ nodes.map Prod.fst := alookup_mem_keys hl
        have hbud : remCount nodes (id :: st.lv) < fuel := by
          have := remCount_lt_cons nodes hkey hin
          omega
        have hkids : ∀ (cs : List String) (cx y' : Int) (s : LState),
            remCount nodes s.lv < fuel →
            layoutKids nodes (fun c cx' cy' s' => layoutF nodes fuel c cx' cy' s')
              cs cx y' s =
            layoutKids nodes (fun c cx' cy' s' => layoutF nodes (fuel + 1) c cx' cy' s')
              cs cx y' s := by
          intro cs
          induction cs with
          | nil =>
            intro cx y' s _
            rfl
          | cons c rest ihk =>
            intro cx y' s hb
            have h1 : layoutF nodes fuel c
                  (cx + (((calcW nodes (nodes.length + 1) c s.wv).1 : Int) *
                    horizontalSpacing) / 2 - horizontalSpacing / 2)
                  (y' + verticalSpacing)
                  { s with wv := (calcW nodes (nodes.length + 1) c s.wv).2 } =
                layoutF nodes (fuel + 1) c
                  (cx + (((calcW nodes (nodes.length + 1) c s.wv).1 : Int) *
                    horizontalSpacing) / 2 - horizontalSpacing / 2)
                  (y' + verticalSpacing)
                  { s with wv := (calcW nodes (nodes.length + 1) c s.wv).2 } :=
              ih c _ _ _ hb
            simp only [layoutKids]
            rw [h1]
            have hb2 : remCount nodes (layoutF nodes (fuel + 1) c
                (cx + (((calcW nodes (nodes.length + 1) c s.wv).1 : Int) *
                  horizontalSpacing) / 2 - horizontalSpacing / 2)
                (y' + verticalSpacing)
                { s with wv := (calcW nodes (nodes.length + 1) c s.wv).2 }).2.lv < fuel := by
              have hg := layoutF_lv_grow nodes (fuel + 1) c
                (cx + (((calcW nodes (nodes.length + 1) c s.wv).1 : Int) *
                  horizontalSpacing) / 2 - horizontalSpacing / 2)
                (y' + verticalSpacing)
                { s with wv := (calcW nodes (nodes.length + 1) c s.wv).2 }
              have hle := remCount_le_of_subset nodes hg
              have hslv : ({ s with
                  wv := (calcW nodes (nodes.length + 1) c s.wv).2 } : LState).lv = s.lv := rfl
              rw [hslv] at hle
              omega
            rw [ihk _ y' _ hb2]
        exact congrArg (fun z : Int × LState => (max z.1 (x + horizontalSpacing), z.2))
          (hkids nd.children x y
            { st with lv := id :: st.lv, positions := (id, (x, y)) :: st.positions } hbud)

theorem calcW_stable_ge (nodes : NodeMap) :
    ∀ (k fuel : Nat) (id : String) (vis : List String), remCount nodes vis < fuel →
      calcW nodes (fuel + k) id vis = calcW nodes fuel id vis := by
  intro k
  induction k with
  | zero =>
    intro fuel id vis _
    rfl
  | succ k ihk =>
    intro fuel id vis h
    have h1 : calcW nodes (fuel + k) id vis = calcW nodes (fuel + k + 1) id vis :=
      calcW_stable nodes (fuel + k) id vis (by omega)
    have h2 : calcW nodes (fuel + k) id vis = calcW nodes fuel id vis := ihk fuel id vis h
    have h3 : fuel + (k + 1) = fuel + k + 1 := rfl
    rw [h3, ← h1, h2]

theorem layoutF_stable_ge (nodes : NodeMap) :
    ∀ (k fuel : Nat) (id : String) (x y : Int) (st : LState), remCount nodes st.lv < fuel →
      layoutF nodes (fuel + k) id x y st = layoutF nodes fuel id x y st := by
  intro k
  induction k with
  | zero =>
    intro fuel id x y st _
    rfl
  | succ k ihk =>
    intro fuel id x y st h
    have h1 : layoutF nodes (fuel + k) id x y st = layoutF nodes (fuel + k + 1) id x y st :=
      layoutF_stable nodes (fuel + k) id x y st (by omega)
    have h2 : layoutF nodes (fuel + k) id x y st = layoutF nodes fuel id x y st :=
      ihk fuel id x y st h
    have h3 : fuel + (k + 1) = fuel + k + 1 := rfl
    rw [h3, ← h1, h2]

theorem alookup_cons_some {α : Type} (k : String) (v : α) (l : List (String × α))
    (a : String) (q : α) (h : alookup l a = some q) :
    ∃ q', alookup ((k, v) :: l) a = some q' := by
  by_cases hk : k = a
  · exact ⟨v, by rw [alookup_cons, if_pos hk]⟩
  · exact ⟨q, by rw [alookup_cons, if_neg hk]; exact h⟩

/-! ### Coverage on arbitrary (possibly cyclic or dangling) input -/

/-- Postcondition of a `layout` call on arbitrary input: the visited set only grows,
new visited ids are existing keys, the called node is visited if it exists, every
newly visited node's existing children end up visited, and every newly visited node
has a recorded position. -/
structure ArbPost (nodes : NodeMap) (id : String) (st : LState) (r : Int × LState) :
    Prop where
  lvGrow : ∀ a ∈ st.lv, a ∈ r.2.lv
  lvNew : ∀ a ∈ r.2.lv, a ∈ st.lv ∨ (alookup nodes a).isSome = true
  visSelf : (alookup nodes id).isSome = true → id ∈ r.2.lv
  closed : ∀ a ∈ r.2.lv, a ∉ st.lv → ∀ nda, alookup nodes a = some nda →
    ∀ c ∈ nda.children, (alookup nodes c).isSome = true → c ∈ r.2.lv
  posNew : ∀ a ∈ r.2.lv, a ∉ st.lv → ∃ q, alookup r.2.positions a = some q
  posMono : ∀ a q, alookup st.positions a = some q → ∃ q', alookup r.2.positions a = some q'

/-- The matching postcondition for the children loop. -/
structure KidsArb (nodes : NodeMap) (cs : List String) (st : LState) (r : Int × LState) :
    Prop where
  lvGrow : ∀ a ∈ st.lv, a ∈ r.2.lv
  lvNew : ∀ a ∈ r.2.lv, a ∈ st.lv ∨ (alookup nodes a).isSome = true
  kidsVisited : ∀ c ∈ cs, (alookup nodes c).isSome = true → c ∈ r.2.lv
  closed : ∀ a ∈ r.2.lv, a ∉ st.lv → ∀ nda, alookup nodes a = some nda →
    ∀ c ∈ nda.children, (alookup nodes c).isSome = true → c ∈ r.2.lv
  posNew : ∀ a ∈ r.2.lv, a ∉ st.lv → ∃ q, alookup r.2.positions a = some q
  posMono : ∀ a q, alookup st.positions a = some q → ∃ q', alookup r.2.positions a = some q'

theorem layoutKids_arb {nodes : NodeMap} (f : String → Int → Int → LState → Int × LState)
    (B : Nat)
    (hf : ∀ (id : String) (x y : Int) (st : LState), remCount nodes st.lv < B →
      ArbPost nodes id st (f id x y st)) :
    ∀ (cs : List String) (cx y : Int) (st : LState), remCount nodes st.lv < B →
      KidsArb nodes cs st (layoutKids nodes f cs cx y st) := by
  intro cs
  induction cs with
  | nil =>
    intro cx y st _
    refine ⟨fun a ha => ha, fun a ha => Or.inl ha, ?_, ?_, ?_, ?_⟩
    · intro c hc
      cases hc
    · intro a ha ha' nda _ c _ _
      exact absurd ha ha'
    · intro a ha ha'
      exact absurd ha ha'
    · intro a q h
      exact ⟨q, h⟩
  | cons c rest ih =>
    intro cx y st hb
    set wr := calcW nodes (nodes.length + 1) c st.wv with hwrdef
    set childX := cx + ((wr.1 : Int) * horizontalSpacing) / 2 - horizontalSpacing / 2
      with hcxdef
    set st' : LState := { st with wv := wr.2 } with hstdef
    set rh := f c childX (y + verticalSpacing) st' with hrhdef
    have hdef : layoutKids nodes f (c :: rest) cx y st =
        layoutKids nodes f rest rh.1 y rh.2 := rfl
    rw [hdef]
    set rt := layoutKids nodes f rest rh.1 y rh.2 with hrtdef
    have HP : ArbPost nodes c st' rh := hf c childX (y + verticalSpacing) st' hb
    have hbud' : remCount nodes rh.2.lv < B := by
      have hle := remCount_le_of_subset nodes (fun a ha => HP.lvGrow a ha)
      have hslv : st'.lv = st.lv := rfl
      rw [hslv] at hle
      omega
    have KT : KidsArb nodes rest rh.2 rt := ih rh.1 y rh.2 hbud'
    refine ⟨?_, ?_, ?_, ?_, ?_, ?_⟩
    · intro a ha
      exact KT.lvGrow a (HP.lvGrow a ha)
    · intro a ha
      rcases KT.lvNew a ha with hrh | hsome
      · rcases HP.lvNew a hrh with hst | hsome
        · exact Or.inl hst
        · exact Or.inr hsome
      · exact Or.inr hsome
    · intro c' hc' hsome
      rcases List.mem_cons.mp hc' with rfl | hc''
      · exact KT.lvGrow c' (HP.visSelf hsome)
      · exact KT.kidsVisited c' hc'' hsome
    · intro a ha ha' nda hnda c' hc' hsome
      by_cases hmem : a ∈ rh.2.lv
      · exact KT.lvGrow c' (HP.closed a hmem ha' nda hnda c' hc' hsome)
      · exact KT.closed a ha hmem nda hnda c' hc' hsome
    · intro a ha ha'
      by_cases hmem : a ∈ rh.2.lv
      · obtain ⟨q, hq⟩ := HP.posNew a hmem ha'
        exact KT.posMono a q hq
      · exact KT.posNew a ha hmem
    · intro a q h
      obtain ⟨q', hq'⟩ := HP.posMono a q h
      exact KT.posMono a q' hq'

theorem layoutF_arb (nodes : NodeMap) :
    ∀ (fuel : Nat) (id : String) (x y : Int) (st : LState), remCount nodes st.lv < fuel →
      ArbPost nodes id st (layoutF nodes fuel id x y st) := by
  intro fuel
  induction fuel with
  | zero =>
    intro id x y st h
    omega
  | succ fuel ih =>
    intro id x y st hrem
    cases hl : alookup nodes id with
    | none =>
      have hdef : layoutF nodes (fuel + 1) id x y st = (x, st) := by
        simp only [layoutF, hl]
      rw [hdef]
      refine ⟨fun a ha => ha, fun a ha => Or.inl ha, ?_, ?_, ?_, ?_⟩
      · intro hsome
        rw [hl] at hsome
        cases hsome
      · intro a ha ha' nda _ c _ _
        exact absurd ha ha'
      · intro a ha ha'
        exact absurd ha ha'
      · intro a q h
        exact ⟨q, h⟩
    | some nd =>
      by_cases hin : id ∈ st.lv
      · have hdef : layoutF nodes (fuel + 1) id x y st = (x, st) := by
          simp only [layoutF, hl, if_pos hin]
        rw [hdef]
        refine ⟨fun a ha => ha, fun a ha => Or.inl ha, fun _ => hin, ?_, ?_, ?_⟩
        · intro a ha ha' nda _ c _ _
          exact absurd ha ha'
        · intro a ha ha'
          exact absurd ha ha'
        · intro a q h
          exact ⟨q, h⟩
      · set st1 : LState :=
          { st with lv := id :: st.lv, positions := (id, (x, y)) :: st.positions } with hst1
        set rk := layoutKids nodes (fun c cx cy s => layoutF nodes fuel c cx cy s)
          nd.children x y st1 with hrkdef
        have hdef : layoutF nodes (fuel + 1) id x y st =
            (max rk.1 (x + horizontalSpacing), rk.2) := by
          simp only [layoutF, hl]
          rw [if_neg hin]
        rw [hdef]
        have hkey : id ∈ nodes.map Prod.fst := alookup_mem_keys hl
        have hbud : remCount nodes st1.lv < fuel := by
          have h1 := remCount_lt_cons nodes hkey hin
          have hslv : st1.lv = id :: st.lv := rfl
          rw [hslv]
          omega
        have KA : KidsArb nodes nd.children st1 rk :=
          layoutKids_arb (fun c cx cy s => layoutF nodes fuel c cx cy s) fuel
            (fun id' x' y' st' hb => ih id' x' y' st' hb) nd.children x y st1 hbud
        have hmem1 : id ∈ st1.lv := List.mem_cons_self _ _
        refine ⟨?_, ?_, ?_, ?_, ?_, ?_⟩
        · intro a ha
          exact KA.lvGrow a (List.mem_cons_of_mem _ ha)
        · intro a ha
          rcases KA.lvNew a ha with hst1m | hsome
          · rcases List.mem_cons.mp hst1m with rfl | hstm
            · refine Or.inr ?_
              rw [hl]
              rfl
            · exact Or.inl hstm
          · exact Or.inr hsome
        · intro _
          exact KA.lvGrow id hmem1
        · intro a ha ha' nda hnda c' hc' hsome
          by_cases haid : a = id
          · subst haid
            have hnd : nd = nda := by
              rw [hl] at hnda
              injection hnda
            subst hnd
            exact KA.kidsVisited c' hc' hsome
          · have hnot1 : a ∉ st1.lv := by
              intro hmem
              rcases List.mem_cons.mp hmem with h1 | h2
              · exact haid h1
              · exact ha' h2
            exact KA.closed a ha hnot1 nda hnda c' hc' hsome
        · intro a ha ha'
          by_cases haid : a = id
          · subst haid
            refine KA.posMono a (x, y) ?_
            show alookup ((a, (x, y)) :: st.positions) a = some (x, y)
            rw [alookup_cons, if_pos rfl]
          · have hnot1 : a ∉ st1.lv := by
              intro hmem
              rcases List.mem_cons.mp hmem with h1 | h2
              · exact haid h1
              · exact ha' h2
            exact KA.posNew a ha hnot1
        · intro a q h
          obtain ⟨q', hq'⟩ := alookup_cons_some id (x, y) st.positions a q h
          exact KA.posMono a q' hq'

/-- Reachability through existing nodes along stored children links. -/
inductive ReachL (nodes : NodeMap) (root : String) : String → Prop where
  | root (nd : TreeNode) (hnd : alookup nodes root = some nd) : ReachL nodes root root
  | child {p c : String} (hp : ReachL nodes root p) (nd : TreeNode)
      (hnd : alookup nodes p = some nd) (hc : c ∈ nd.children) (nc : TreeNode)
      (hnc : alookup nodes c = some nc) : ReachL nodes root c

/-- Every node reachable from the root receives a position, on arbitrary input. -/
theorem layout_covers_reachable (nodes : NodeMap) (rootId : String) :
    ∀ n, ReachL nodes rootId n → ∃ q, alookup (calculateLayout rootId nodes) n = some q := by
  have A : ArbPost nodes rootId ⟨[], [], []⟩
      (layoutF nodes (nodes.length + 1) rootId 0 0 ⟨[], [], []⟩) :=
    layoutF_arb nodes (nodes.length + 1) rootId 0 0 ⟨[], [], []⟩
      (by
        have h1 := remCount_le_length nodes []
        have h2 : (⟨[], [], []⟩ : LState).lv = [] := rfl
        rw [h2]
        omega)
  have hlv : ∀ n, ReachL nodes rootId n →
      n ∈ (layoutF nodes (nodes.length + 1) rootId 0 0 ⟨[], [], []⟩).2.lv := by
    intro n h
    induction h with
    | root nd hnd =>
      refine A.visSelf ?_
      rw [hnd]
      rfl
    | child hp nd hnd hc nc hnc ihr =>
      refine A.closed _ ihr (List.not_mem_nil _) nd hnd _ hc ?_
      rw [hnc]
      rfl
  intro n h
  exact A.posNew n (hlv n h) (List.not_mem_nil _)

/-- C2: on every input, including cyclic or dangling ones, the layout recursion
terminates: the fuel-indexed approximations of `layout` and `calculateSubtreeWidth`
are constant from `nodes.length + 1` on; a revisited or missing node is a stopped
branch (`layout` returns `x` unchanged) of width 1; and the returned position map has
an entry for every node reachable from the root id. -/
theorem layout_terminates_and_covers (nodes : NodeMap) (rootId : String) :
    (∀ (fuel : Nat) (id : String) (x y : Int) (st : LState), nodes.length + 1 ≤ fuel →
      layoutF nodes fuel id x y st = layoutF nodes (nodes.length + 1) id x y st) ∧
    (∀ (fuel : Nat) (id : String) (vis : List String), nodes.length + 1 ≤ fuel →
      calcW nodes fuel id vis = calcW nodes (nodes.length + 1) id vis) ∧
    (∀ (fuel : Nat) (id : String) (x y : Int) (st : LState), id ∈ st.lv →
      layoutF nodes fuel id x y st = (x, st)) ∧
    (∀ (fuel : Nat) (id : String) (x y : Int) (st : LState), alookup nodes id = none →
      layoutF nodes fuel id x y st = (x, st)) ∧
    (∀ (fuel : Nat) (id : String) (vis : List String), id ∈ vis →
      (calcW nodes fuel id vis).1 = 1) ∧
    (∀ (fuel : Nat) (id : String) (vis : List String), alookup nodes id = none →
      (calcW nodes fuel id vis).1 = 1) ∧
    (∀ n, ReachL nodes rootId n →
      ∃ q, alookup (calculateLayout rootId nodes) n = some q) := by
  refine ⟨?_, ?_, ?_, ?_, ?_, ?_, layout_covers_reachable nodes rootId⟩
  · intro fuel id x y st hge
    have hk : fuel = (nodes.length + 1) + (fuel - (nodes.length + 1)) := by omega
    rw [hk]
    refine layoutF_stable_ge nodes (fuel - (nodes.length + 1)) (nodes.length + 1)
      id x y st ?_
    have := remCount_le_length nodes st.lv
    omega
  · intro fuel id vis hge
    have hk : fuel = (nodes.length + 1) + (fuel - (nodes.length + 1)) := by omega
    rw [hk]
    refine calcW_stable_ge nodes (fuel - (nodes.length + 1)) (nodes.length + 1)
      id vis ?_
    have := remCount_le_length nodes vis
    omega
  · intro fuel id x y st hin
    cases fuel with
    | zero => rfl
    | succ fuel =>
      cases hl : alookup nodes id with
      | none => simp only [layoutF, hl]
      | some nd => simp only [layoutF, hl, if_pos hin]
  · intro fuel id x y st hl
    cases fuel with
    | zero => rfl
    | succ fuel => simp only [layoutF, hl]
  · intro fuel id vis hin
    cases fuel with
    | zero => rfl
    | succ fuel =>
      cases hl : alookup nodes id with
      | none => simp only [calcW, hl]
      | some nd => simp only [calcW, hl, if_pos hin]
  · intro fuel id vis hl
    cases fuel with
    | zero => rfl
    | succ fuel => simp only [calcW, hl]

/-- A node mapping with a cycle (a → b → a) and a dangling child reference "x". -/
def cyclePair : NodeMap := [("a", ⟨["b"]⟩), ("b", ⟨["a", "x"]⟩)]

/-- C2 witness: on the concrete cyclic and dangling input, the fuel approximations
agree one step beyond the bound, and the reachable node "b" receives a position. -/
theorem layout_terminates_and_covers_witness :
    layoutF cyclePair (cyclePair.length + 2) "a" 0 0 ⟨[], [], []⟩ =
      layoutF cyclePair (cyclePair.length + 1) "a" 0 0 ⟨[], [], []⟩ ∧
    (∃ q, alookup (calculateLayout "a" cyclePair) "b" = some q) := by
  constructor
  · exact (layout_terminates_and_covers cyclePair "a").1 (cyclePair.length + 2)
      "a" 0 0 ⟨[], [], []⟩ (by omega)
  · refine (layout_terminates_and_covers cyclePair "a").2.2.2.2.2.2 "b" ?_
    exact ReachL.child (ReachL.root ⟨["b"]⟩ rfl) ⟨["b"]⟩ rfl (by decide)
      ⟨["a", "x"]⟩ rfl

/-! ### Subtree widths: consulted value vs spec value -/

/-- Modelled from the spec (§4.3 LayoutEngine), for comparison with the code's
`calculateSubtreeWidth`: a leaf (or missing node) has unit subtree width; an internal
node's subtree width is the sum of its children's subtree widths — the number of
leaves beneath it.  Unlike the code's function it consults no shared visited set. -/
def specSubtreeWidth (nodes : NodeMap) : Nat → String → Nat
  | 0, _ => 1
  | fuel + 1, id =>
    match alookup nodes id with
    | none => 1
    | some nd =>
      if nd.children = [] then 1
      else (nd.children.map (fun c => specSubtreeWidth nodes fuel c)).sum

theorem calcWKids_fresh {nodes : NodeMap} (f : String → List String → Nat × List String)
    (g : String → Nat) (B : Nat)
    (hf : ∀ (id : String) (S vis : List String), IsSubtree nodes id S →
      (∀ a ∈ S, a ∉ vis) → S.length ≤ B →
      (f id vis).1 = g id ∧ (∀ a, a ∈ (f id vis).2 ↔ a ∈ S ∨ a ∈ vis)) :
    ∀ (cs : List String) (ss : List (List String)) (vis : List String),
      List.Forall₂ (IsSubtree nodes) cs ss →
      List.Pairwise (fun s t => ∀ a ∈ s, a ∉ t) ss →
      (∀ a ∈ ss.flatten, a ∉ vis) → ss.flatten.length ≤ B →
      (calcWKids f cs vis).1 = (cs.map g).sum ∧
      (∀ a, a ∈ (calcWKids f cs vis).2 ↔ a ∈ ss.flatten ∨ a ∈ vis) := by
  intro cs
  induction cs with
  | nil =>
    intro ss vis hforall hdisj hfresh hlen
    cases hforall
    constructor
    · rfl
    · intro a
      simp [calcWKids]
  | cons c rest ih =>
    intro ss vis hforall hdisj hfresh hlen
    cases hforall with
    | @cons _ Sc _ ss' hR hF =>
      obtain ⟨hhead, htail⟩ := List.pairwise_cons.mp hdisj
      have hmemflat : ∀ a, a ∈ (Sc :: ss').flatten ↔ a ∈ Sc ∨ a ∈ ss'.flatten := by
        intro a
        rw [List.flatten_cons, List.mem_append]
      have hdisjSc : ∀ a ∈ Sc, a ∉ ss'.flatten := by
        intro a ha hmem
        obtain ⟨T, hT, haT⟩ := List.mem_flatten.mp hmem
        exact hhead T hT a ha haT
      have hlenSc : Sc.length ≤ B :=
        le_trans (length_le_flatten (List.mem_cons_self _ _)) hlen
      have hlen' : ss'.flatten.length ≤ B := by
        have hsum : (Sc :: ss').flatten.length = Sc.length + ss'.flatten.length := by
          rw [List.flatten_cons, List.length_append]
        omega
      have hfreshSc : ∀ a ∈ Sc, a ∉ vis := by
        intro a ha
        exact hfresh a ((hmemflat a).mpr (Or.inl ha))
      obtain ⟨hw, hv⟩ := hf c Sc vis hR hfreshSc hlenSc
      have hfresh' : ∀ a ∈ ss'.flatten, a ∉ (f c vis).2 := by
        intro a ha hmem
        rcases (hv a).mp hmem with hSc | hvis
        · exact hdisjSc a hSc ha
        · exact hfresh a ((hmemflat a).mpr (Or.inr ha)) hvis
      obtain ⟨hw', hv'⟩ := ih ss' (f c vis).2 hF htail hfresh' hlen'
      have hdef : calcWKids f (c :: rest) vis =
          ((f c vis).1 + (calcWKids f rest (f c vis).2).1,
            (calcWKids f rest (f c vis).2).2) := rfl
      rw [hdef]
      constructor
      · simp only [List.map_cons, List.sum_cons]
        rw [hw, hw']
      · intro a
        rw [hmemflat a]
        constructor
        · intro hmem
          rcases (hv' a).mp hmem with hss | hfv
          · exact Or.inl (Or.inr hss)
          · rcases (hv a).mp hfv with hSc | hvis
            · exact Or.inl (Or.inl hSc)
            · exact Or.inr hvis
        · intro hmem
          rcases hmem with (hSc | hss) | hvis
          · exact (hv' a).mpr (Or.inr ((hv a).mpr (Or.inl hSc)))
          · exact (hv' a).mpr (Or.inl hss)
          · exact (hv' a).mpr (Or.inr ((hv a).mpr (Or.inr hvis)))

/-- A width consult on a fresh well-formed subtree returns the spec width (the leaf
count) and marks exactly the subtree's members visited. -/
theorem calcW_fresh {nodes : NodeMap} :
    ∀ (fuel : Nat) (id : String) (S vis : List String), IsSubtree nodes id S →
      (∀ a ∈ S, a ∉ vis) → S.length ≤ fuel →
      (calcW nodes fuel id vis).1 = specSubtreeWidth nodes fuel id ∧
      (∀ a, a ∈ (calcW nodes fuel id vis).2 ↔ a ∈ S ∨ a ∈ vis) := by
  intro fuel
  induction fuel with
  | zero =>
    intro id S vis h hfresh hlen
    obtain ⟨_, _, _, _, _, _, rfl⟩ := subtree_inv h
    simp at hlen
  | succ fuel ih =>
    intro id S vis h hfresh hlen
    obtain ⟨nd, ss, hl, hc, hd, hr, rfl⟩ := subtree_inv h
    have hniv : id ∉ vis := hfresh id (List.mem_cons_self _ _)
    have hflen : ss.flatten.length ≤ fuel := by
      simp only [List.length_cons] at hlen
      omega
    by_cases hce : nd.children = []
    · have hss : ss = [] := by
        rw [hce] at hc
        cases hc
        rfl
      subst hss
      constructor
      · simp only [calcW, specSubtreeWidth, hl, if_neg hniv, if_pos hce]
      · intro a
        simp only [calcW, hl, if_neg hniv, if_pos hce]
        simp [List.mem_cons]
    · have hfreshk : ∀ a ∈ ss.flatten, a ∉ id :: vis := by
        intro a ha hmem
        rcases List.mem_cons.mp hmem with rfl | hvis
        · exact hr ha
        · exact hfresh a (List.mem_cons_of_mem _ ha) hvis
      obtain ⟨hw, hv⟩ := calcWKids_fresh (fun c v => calcW nodes fuel c v)
        (fun c => specSubtreeWidth nodes fuel c) fuel
        (fun id' S' vis' h' hf' hl' => ih id' S' vis' h' hf' hl')
        nd.children ss (id :: vis) hc hd hfreshk hflen
      constructor
      · simp only [calcW, specSubtreeWidth, hl, if_neg hniv, if_neg hce]
        exact hw
      · intro a
        simp only [calcW, hl, if_neg hniv, if_neg hce]
        rw [hv a]
        simp only [List.mem_cons]
        tauto

/-- The 6-node tree r → A → (B, C), B → (b1, b2) on which the shared width-visited
set makes deep width consults degenerate. -/
def deepTree : NodeMap :=
  [("r", ⟨["A"]⟩), ("A", ⟨["B", "C"]⟩), ("B", ⟨["b1", "b2"]⟩),
   ("b1", ⟨[]⟩), ("b2", ⟨[]⟩), ("C", ⟨[]⟩)]

/-- C4 counterexample: during the layout pass on `deepTree` the first width consult is
`calculateSubtreeWidth("A")` on the cleared width-visited set (laying out the children
of "r"); the next consult, `calculateSubtreeWidth("B")` (laying out the children of
"A"), runs under the visited set the first consult left behind, and returns 1 — but
"B" has two leaves beneath it.  The resulting position of "B" is the degenerate
(250, 240) rather than the centered 375 that a width of 2 would give.  So not every
width consulted during a single layout pass equals the leaf count. -/
theorem layout_width_consult_cex :
    (calcW deepTree (deepTree.length + 1) "B"
      (calcW deepTree (deepTree.length + 1) "A" []).2).1 = 1 ∧
    specSubtreeWidth deepTree (deepTree.length + 1) "B" = 2 ∧
    alookup (calculateLayout "r" deepTree) "B" = some (250, 240) := by
  refine ⟨by decide, by decide, rfl⟩

/-- C4 (amended): a width consult of a node already in the width-visited set — as
every node below the first level is during a layout pass, the set being shared across
the whole pass — returns 1 regardless of leaf count; a consult of a node rooting a
well-formed subtree disjoint from the current visited set returns exactly the leaf
count (`specSubtreeWidth`: 1 for a leaf, the sum of the children's widths otherwise)
and marks exactly the subtree's members visited. -/
theorem calcW_visited_or_fresh (nodes : NodeMap) :
    (∀ (fuel : Nat) (id : String) (vis : List String), id ∈ vis →
      (calcW nodes fuel id vis).1 = 1) ∧
    (∀ (fuel : Nat) (id : String) (S vis : List String), IsSubtree nodes id S →
      (∀ a ∈ S, a ∉ vis) → S.length ≤ fuel →
      (calcW nodes fuel id vis).1 = specSubtreeWidth nodes fuel id ∧
      (∀ a, a ∈ (calcW nodes fuel id vis).2 ↔ a ∈ S ∨ a ∈ vis)) := by
  constructor
  · intro fuel id vis hin
    cases fuel with
    | zero => rfl
    | succ fuel =>
      cases hl : alookup nodes id with
      | none => simp only [calcW, hl]
      | some nd => simp only [calcW, hl, if_pos hin]
  · intro fuel id S vis h hfresh hlen
    exact calcW_fresh fuel id S vis h hfresh hlen

/-- C4 witness: the amended theorem applied concretely — the fresh consult on the
two-leaf tree's root returns its leaf count 2, and a visited consult returns 1. -/
theorem calcW_visited_or_fresh_witness :
    (calcW pairTree 4 "r" []).1 = specSubtreeWidth pairTree 4 "r" ∧
    (calcW pairTree 4 "r" ["r"]).1 = 1 := by
  constructor
  · exact ((calcW_visited_or_fresh pairTree).2 4 "r" ["r", "c1", "c2"] []
      pairTree_subtree (fun a _ => List.not_mem_nil a) (by decide)).1
  · exact (calcW_visited_or_fresh pairTree).1 4 "r" ["r"] (by decide)
